import Mathlib

/-!
Verification development for the osi-python trace reading library.

The development shallowly embeds the two trace reading strategies of the
repository:

* `OSITraceSingle` models the flat single-channel reader
  `_OSITraceSingle` of `src/osi3trace/osi_trace.py`.  The trace file is a
  list of bytes (`List Nat`); the file object is modelled by an explicit
  position into that list, with the semantics of a plain binary `open`
  (absolute and relative seeks always succeed, reads return the bytes that
  are available).  Protobuf decoding (`ParseFromString`) is modelled as the
  identity on the payload bytes, so a decoded message is its serialized
  byte list; this is faithful for every claim stated over serialized bytes.
  Python exceptions are modelled by `Except`; because Python mutates the
  object in place before an exception escapes, every operation returns the
  state next to the `Except` result.  Python list indexing (including
  negative indices) is modelled by `pyIdx`.

* `IndexedSeekingReader` models `src/osi3trace/indexed_mcap_reader.py`.
  The external mcap collaborators (summary parsing, chunk reading, the
  `MessageQueue` priority structure, `_chunks_matching_topics`, the
  non-seeking fallback reader and the decoder factories) are modelled as
  deterministic data and functions on an abstract `McapFile`, following the
  behaviour documented for them; the repository code that orchestrates them
  (`iter_messages`, `get`) is translated statement by statement.

* `OSITrace` models the facade class of `osi_trace.py`, dispatching on the
  active reader variant.

Loops of the source are expressed with an explicit fuel parameter; the
theorems supply enough fuel for the runs they describe.
-/

/-- A decoded message, identified with its serialized payload bytes. -/
abbrev Msg := List Nat

/-- Python exceptions that the modelled code can raise.  `fuelExhausted` is
an artifact of the fueled loop encoding and never occurs in the proved
runs. -/
inductive PyErr
  | indexError
  | notImplementedError
  | fuelExhausted
deriving DecidableEq, Repr

/-- Possible Python return values of `retrieve_message`: the `None`
sentinel, a decoded message, or an integer file offset (skip mode). -/
inductive RetVal
  | vnone
  | vmsg (m : Msg)
  | vint (n : Nat)
deriving DecidableEq, Repr

/-- Python list indexing `l[i]`, supporting negative indices; `none` means
an `IndexError` is raised. -/
def pyIdx (l : List Nat) (i : Int) : Option Nat :=
  if 0 ≤ i then l.get? i.toNat
  else if 0 ≤ i + l.length then l.get? (i + l.length).toNat
  else none

/-- `struct.unpack("<L", header)[0]` on a 4 byte little-endian header. -/
def decodeLE (l : List Nat) : Nat :=
  match l with
  | [b0, b1, b2, b3] => b0 + 256 * b1 + 65536 * b2 + 16777216 * b3
  | _ => 0

/-- The 4 byte little-endian encoding of a record length. -/
def encodeLE (n : Nat) : List Nat :=
  [n % 256, n / 256 % 256, n / 65536 % 256, n / 16777216 % 256]

/-- The header length used by the flat reader (`self._header_length`). -/
def headerLength : Nat := 4

/-- State of a `_OSITraceSingle` reader.  `data` is the byte content of the
open file and `pos` the current file position (`file.tell()`); the other
fields are the attributes of the Python object.  The message cache is an
association list from index to decoded message (`None` when caching is
disabled), with newer entries in front, matching dict assignment. -/
structure SingleState where
  data : List Nat
  pos : Nat
  current_index : Int
  message_offsets : List Nat
  read_complete : Bool
  message_cache : Option (List (Int × Msg))
deriving DecidableEq, Repr

/-- `self.message_cache is not None and i in self.message_cache`, returning
the cached message. -/
def cacheLookup (c : Option (List (Int × Msg))) (i : Int) : Option Msg :=
  match c with
  | none => none
  | some l => (l.find? (fun p => p.1 == i)).map (fun p => p.2)

/-- `self.message_cache[i] = v` (a no-op when caching is disabled). -/
def cacheInsertA (c : Option (List (Int × Msg))) (i : Int) (v : Msg) :
    Option (List (Int × Msg)) :=
  match c with
  | none => none
  | some l => some ((i, v) :: l)

namespace OSITraceSingle

/-- The body of `retrieve_message` from the `start = self.file.tell()` line
on: reads the header and either skips or reads and decodes the payload,
maintaining the offset table, the cache and `read_complete` exactly as the
source does. -/
def retrieve_message_read (s : SingleState) (skip : Bool) :
    SingleState × Except PyErr RetVal :=
  let start := s.pos
  let header := (s.data.drop start).take headerLength
  let s := { s with pos := start + header.length }
  if header.length < headerLength then
    match s.message_offsets.getLast? with
    | none => (s, .error .indexError)
    | some last =>
      if start = last then
        ({ s with message_offsets := s.message_offsets.dropLast,
                  read_complete := true, pos := start }, .ok .vnone)
      else
        ({ s with pos := start }, .ok .vnone)
  else
    let message_length := decodeLE header
    if skip then
      let new_pos := s.pos + message_length
      let s := { s with pos := new_pos }
      if new_pos - start < message_length + headerLength then
        match s.message_offsets.getLast? with
        | none => (s, .error .indexError)
        | some last =>
          if start = last then
            ({ s with message_offsets := s.message_offsets.dropLast,
                      read_complete := true, pos := start }, .ok .vnone)
          else
            ({ s with pos := start }, .ok .vnone)
      else
        let s := { s with current_index := s.current_index + 1 }
        match s.message_offsets.getLast? with
        | none => (s, .error .indexError)
        | some last =>
          if start = last then
            ({ s with message_offsets := s.message_offsets ++ [new_pos] },
             .ok (.vint new_pos))
          else
            (s, .ok (.vint new_pos))
    else
      let message_data := (s.data.drop s.pos).take message_length
      let s := { s with pos := s.pos + message_data.length }
      if message_data.length < message_length then
        match s.message_offsets.getLast? with
        | none => (s, .error .indexError)
        | some last =>
          if start = last then
            ({ s with message_offsets := s.message_offsets.dropLast,
                      read_complete := true, pos := start }, .ok .vnone)
          else
            ({ s with pos := start }, .ok .vnone)
      else
        let s := { s with current_index := s.current_index + 1 }
        let message := message_data
        match s.message_offsets.getLast? with
        | none => (s, .error .indexError)
        | some last =>
          if start = last then
            let s := { s with message_cache :=
              (cacheInsertA s.message_cache
                ((s.message_offsets.length : Int) - 1) message) }
            ({ s with message_offsets := s.message_offsets ++ [s.pos] },
             .ok (.vmsg message))
          else
            (s, .ok (.vmsg message))

/-- `retrieve_message` after the optional index seek: the cache fast path
followed by `retrieve_message_read`. -/
def retrieve_message_after_seek (s : SingleState) (skip : Bool) :
    SingleState × Except PyErr RetVal :=
  match cacheLookup s.message_cache s.current_index with
  | some message =>
    let s := { s with current_index := s.current_index + 1 }
    if s.current_index = (s.message_offsets.length : Int) then
      let s := { s with pos := s.data.length }
      if skip then
        match pyIdx s.message_offsets s.current_index with
        | none => (s, .error .indexError)
        | some v => (s, .ok (.vint v))
      else
        (s, .ok (.vmsg message))
    else
      match pyIdx s.message_offsets s.current_index with
      | none => (s, .error .indexError)
      | some off =>
        let s := { s with pos := off }
        if skip then (s, .ok (.vint off)) else (s, .ok (.vmsg message))
  | none => retrieve_message_read s skip

/-- `_OSITraceSingle.retrieve_message(index, skip)`. -/
def retrieve_message (s : SingleState) (index : Option Int) (skip : Bool) :
    SingleState × Except PyErr RetVal :=
  match index with
  | some i =>
    let s := { s with current_index := i }
    match pyIdx s.message_offsets i with
    | none => (s, .error .indexError)
    | some off => retrieve_message_after_seek { s with pos := off } skip
  | none => retrieve_message_after_seek s skip

/-- The `while` condition of `retrieve_offsets`:
`not limit or len(self.message_offsets) <= limit` (a limit of `None` or `0`
is falsy and means unbounded). -/
def limitHolds (limit : Option Int) (len : Nat) : Bool :=
  match limit with
  | none => true
  | some v => v == 0 || (len : Int) ≤ v

/-- The `while` loop of `retrieve_offsets`, with fuel. -/
def retrieve_offsets_loop :
    Nat → Option Int → SingleState → SingleState × Except PyErr Unit
  | 0, _, s => (s, .error .fuelExhausted)
  | fuel + 1, limit, s =>
    if !s.read_complete && limitHolds limit s.message_offsets.length then
      match retrieve_message s none true with
      | (s1, .ok _) => retrieve_offsets_loop fuel limit s1
      | (s1, .error e) => (s1, .error e)
    else
      (s, .ok ())

/-- `_OSITraceSingle.retrieve_offsets(limit)`. -/
def retrieve_offsets (fuel : Nat) (limit : Option Int) (s : SingleState) :
    SingleState × Except PyErr (List Nat) :=
  if s.read_complete then
    match retrieve_offsets_loop fuel limit s with
    | (s1, .ok _) => (s1, .ok s1.message_offsets)
    | (s1, .error e) => (s1, .error e)
  else
    let s := { s with current_index := (s.message_offsets.length : Int) - 1 }
    match s.message_offsets.getLast? with
    | none => (s, .error .indexError)
    | some last =>
      let s := { s with pos := last }
      match retrieve_offsets_loop fuel limit s with
      | (s1, .ok _) => (s1, .ok s1.message_offsets)
      | (s1, .error e) => (s1, .error e)

/-- `_OSITraceSingle.get_message_by_index(index)`. -/
def get_message_by_index (fuel : Nat) (s : SingleState) (index : Int) :
    SingleState × Except PyErr RetVal :=
  let pre : SingleState × Option PyErr :=
    if (s.message_offsets.length : Int) ≤ index then
      match retrieve_offsets fuel (some index) s with
      | (s1, .ok _) => (s1, none)
      | (s1, .error e) => (s1, some e)
    else
      (s, none)
  match pre with
  | (s1, some e) => (s1, .error e)
  | (s1, none) =>
    match cacheLookup s1.message_cache index with
    | some m => (s1, .ok (.vmsg m))
    | none => retrieve_message s1 (some index) false

/-- `_OSITraceSingle.restart(index)`; `index if index else 0` maps both
`None` and `0` to `0`. -/
def restart (s : SingleState) (index : Option Int) :
    SingleState × Except PyErr Unit :=
  let ci : Int :=
    match index with
    | none => 0
    | some i => if i = 0 then 0 else i
  let s := { s with current_index := ci }
  match pyIdx s.message_offsets ci with
  | none => (s, .error .indexError)
  | some off => ({ s with pos := off }, .ok ())

/-- The `__iter__` generator: `while message := self.retrieve_message():`.
Returns the yielded messages, the final state and the exception, if any,
that escaped the generator. -/
def iterLoop : Nat → SingleState → List Msg × SingleState × Option PyErr
  | 0, s => ([], s, none)
  | fuel + 1, s =>
    match retrieve_message s none false with
    | (s1, .ok (.vmsg m)) =>
      match iterLoop fuel s1 with
      | (ms, s2, e) => (m :: ms, s2, e)
    | (s1, .ok _) => ([], s1, none)
    | (s1, .error e) => ([], s1, some e)

/-- The `while` loop of `get_messages_in_index_range`. -/
def range_loop :
    Nat → SingleState → Int → Option Int → List Msg × SingleState × Option PyErr
  | 0, s, _, _ => ([], s, none)
  | fuel + 1, s, current, endIdx =>
    if (match endIdx with | none => true | some e => decide (current < e)) then
      match cacheLookup s.message_cache current with
      | some m =>
        match range_loop fuel s (current + 1) endIdx with
        | (ms, s1, e) => (m :: ms, s1, e)
      | none =>
        match retrieve_message s none false with
        | (s1, .ok (.vmsg m)) =>
          match range_loop fuel s1 (current + 1) endIdx with
          | (ms, s2, e) => (m :: ms, s2, e)
        | (s1, .ok _) => ([], s1, none)
        | (s1, .error e) => ([], s1, some e)
    else
      ([], s, none)

/-- `_OSITraceSingle.get_messages_in_index_range(begin, end)` (the
generator body, run eagerly). -/
def get_messages_in_index_range (fuel : Nat) (s : SingleState) (b : Int)
    (endIdx : Option Int) : List Msg × SingleState × Option PyErr :=
  let pre : SingleState × Option PyErr :=
    if (s.message_offsets.length : Int) ≤ b then
      match retrieve_offsets fuel (some b) s with
      | (s1, .ok _) => (s1, none)
      | (s1, .error e) => (s1, some e)
    else
      (s, none)
  match pre with
  | (s1, some e) => ([], s1, some e)
  | (s1, none) =>
    match restart s1 (some b) with
    | (s2, .ok _) => range_loop fuel s2 b endIdx
    | (s2, .error e) => ([], s2, some e)

end OSITraceSingle

/-- The reader state created by `_OSITraceSingle.__init__` on an open file
with content `data` (`cacheFlag` is `cache_messages`). -/
def initState (data : List Nat) (cacheFlag : Bool) : SingleState :=
  { data := data, pos := 0, current_index := 0, message_offsets := [0],
    read_complete := false,
    message_cache := if cacheFlag then some [] else none }

/-- The empty message cache of a fresh reader. -/
def emptyCache (cacheFlag : Bool) : Option (List (Int × Msg)) :=
  if cacheFlag then some [] else none

/-! ### The flat container format

`encodeRec` is the on-disk form `[4-byte little-endian length][payload]` of
one record; a valid flat trace is the concatenation of encoded records. -/

/-- One length-prefixed record. -/
def encodeRec (r : Msg) : List Nat := encodeLE r.length ++ r

/-- A whole flat trace. -/
def encodeAll : List Msg → List Nat
  | [] => []
  | r :: rs => encodeRec r ++ encodeAll rs

/-- Total byte size of a list of encoded records. -/
def totalSize : List Msg → Nat
  | [] => 0
  | r :: rs => 4 + r.length + totalSize rs

/-- The start offsets of the records of a trace, beginning at `acc`. -/
def startOffsets : List Msg → Nat → List Nat
  | [], _ => []
  | r :: rs, acc => acc :: startOffsets rs (acc + (4 + r.length))

/-- Every record length fits the 4 byte length prefix. -/
def validRecords (rs : List Msg) : Prop :=
  ∀ r ∈ rs, r.length < 4294967296

instance : DecidablePred validRecords := fun rs =>
  List.decidableBAll _ rs

/-- The canonical state of a reader that has consumed the records `done`
of its trace at their natural positions: the offset table holds the start
offsets of `done` plus the end-of-known-stream sentinel. -/
def midState (D : List Nat) (c : Option (List (Int × Msg)))
    (done : List Msg) : SingleState :=
  { data := D, pos := totalSize done, current_index := (done.length : Int),
    message_offsets := startOffsets done 0 ++ [totalSize done],
    read_complete := false, message_cache := c }

/-- The state of a reader that has consumed the whole trace `recs` and hit
the end-of-stream probe: the sentinel entry has been popped and
`read_complete` is set. -/
def doneState (D : List Nat) (c : Option (List (Int × Msg)))
    (recs : List Msg) : SingleState :=
  { data := D, pos := totalSize recs, current_index := (recs.length : Int),
    message_offsets := startOffsets recs 0,
    read_complete := true, message_cache := c }

/-- The cache contents after reading the records `rs` at their natural
positions, the first of them having index `k`. -/
def cacheAfter (c : Option (List (Int × Msg))) (k : Nat) :
    List Msg → Option (List (Int × Msg))
  | [] => c
  | r :: rs => cacheAfter (cacheInsertA c (k : Int) r) (k + 1) rs

/-- A trailing byte sequence at which a read stops: too short for a
header, or a header whose declared payload length exceeds the bytes that
follow. -/
def truncStop (t : List Nat) : Prop :=
  t.length < 4 ∨
    ∃ L p, t = encodeLE L ++ p ∧ L < 4294967296 ∧ p.length < L

/-- No cache entry at index `k` or beyond. -/
def noKeysFrom (c : Option (List (Int × Msg))) (k : Nat) : Prop :=
  ∀ j : Nat, k ≤ j → cacheLookup c (j : Int) = none

/-! ### Basic lemmas about the encoding -/

theorem encodeLE_length (n : Nat) : (encodeLE n).length = 4 := rfl

theorem decode_encode {n : Nat} (h : n < 4294967296) :
    decodeLE (encodeLE n) = n := by
  simp only [encodeLE, decodeLE]
  omega

theorem encodeAll_append (xs ys : List Msg) :
    encodeAll (xs ++ ys) = encodeAll xs ++ encodeAll ys := by
  induction xs with
  | nil => simp [encodeAll]
  | cons r rs ih => simp [encodeAll, ih]

theorem length_encodeAll (rs : List Msg) :
    (encodeAll rs).length = totalSize rs := by
  induction rs with
  | nil => simp [encodeAll, totalSize]
  | cons r rs ih => simp [encodeAll, totalSize, encodeRec, ih, encodeLE]; omega

theorem totalSize_append (xs ys : List Msg) :
    totalSize (xs ++ ys) = totalSize xs + totalSize ys := by
  induction xs with
  | nil => simp [totalSize]
  | cons r rs ih => simp [totalSize, ih]; omega

theorem totalSize_concat (xs : List Msg) (r : Msg) :
    totalSize (xs ++ [r]) = totalSize xs + 4 + r.length := by
  rw [totalSize_append]; simp [totalSize]; omega

theorem startOffsets_append (xs ys : List Msg) (acc : Nat) :
    startOffsets (xs ++ ys) acc =
      startOffsets xs acc ++ startOffsets ys (acc + totalSize xs) := by
  induction xs generalizing acc with
  | nil => simp [startOffsets, totalSize]
  | cons r rs ih =>
    show acc :: startOffsets (rs ++ ys) (acc + (4 + r.length))
        = acc :: (startOffsets rs (acc + (4 + r.length)) ++
            startOffsets ys (acc + totalSize (r :: rs)))
    rw [ih, show acc + totalSize (r :: rs)
        = acc + (4 + r.length) + totalSize rs by simp [totalSize]; omega]

theorem startOffsets_length (rs : List Msg) (acc : Nat) :
    (startOffsets rs acc).length = rs.length := by
  induction rs generalizing acc with
  | nil => rfl
  | cons r rs ih => simp [startOffsets, ih]

theorem startOffsets_get? (rs : List Msg) (acc k : Nat) (h : k < rs.length) :
    (startOffsets rs acc).get? k = some (acc + totalSize (rs.take k)) := by
  induction rs generalizing acc k with
  | nil => simp at h
  | cons r rs ih =>
    cases k with
    | zero => simp [startOffsets, totalSize]
    | succ k =>
      simp only [startOffsets, List.get?_cons_succ, List.take, totalSize]
      rw [ih _ k (by simpa using h)]
      congr 1
      omega

theorem startOffsets_getLast? (rs : List Msg) (acc : Nat) (h : rs ≠ []) :
    (startOffsets rs acc).getLast? = some (acc + totalSize rs.dropLast) := by
  induction rs generalizing acc with
  | nil => exact absurd rfl h
  | cons r rs ih =>
    cases rs with
    | nil => simp [startOffsets, totalSize]
    | cons r2 rs2 =>
      have e2 : (startOffsets (r :: r2 :: rs2) acc).getLast?
          = (startOffsets (r2 :: rs2) (acc + (4 + r.length))).getLast? :=
        List.getLast?_cons_cons ..
      rw [e2, ih _ (by simp)]
      simp only [Option.some.injEq, List.dropLast, totalSize]
      omega

theorem chain_startOffsets (rs : List Msg) (acc : Nat) :
    List.Chain' (· < ·) (startOffsets rs acc) := by
  induction rs generalizing acc with
  | nil => simp [startOffsets]
  | cons r rs ih =>
    rw [show startOffsets (r :: rs) acc
        = acc :: startOffsets rs (acc + (4 + r.length)) from rfl]
    refine List.chain'_cons'.mpr ⟨?_, ih _⟩
    intro y hy
    cases rs with
    | nil => simp [startOffsets] at hy
    | cons r2 rs2 =>
      rw [show startOffsets (r2 :: rs2) (acc + (4 + r.length))
          = (acc + (4 + r.length)) :: startOffsets rs2 ((acc + (4 + r.length)) + (4 + r2.length)) from rfl] at hy
      simp at hy
      omega

/-! ### Cache lemmas -/

theorem cacheLookup_emptyCache (flag : Bool) (i : Int) :
    cacheLookup (emptyCache flag) i = none := by
  cases flag <;> simp [emptyCache, cacheLookup]

theorem noKeysFrom_emptyCache (flag : Bool) (k : Nat) :
    noKeysFrom (emptyCache flag) k := by
  intro j _; exact cacheLookup_emptyCache flag j

theorem cacheLookup_insert_ne (c : Option (List (Int × Msg))) (k i : Int)
    (v : Msg) (h : k ≠ i) :
    cacheLookup (cacheInsertA c k v) i = cacheLookup c i := by
  cases c with
  | none => rfl
  | some l =>
    simp only [cacheInsertA, cacheLookup]
    rw [List.find?_cons_of_neg _ (by simp [h])]

theorem noKeysFrom_insert (c : Option (List (Int × Msg))) (k : Nat) (v : Msg)
    (h : noKeysFrom c k) : noKeysFrom (cacheInsertA c (k : Int) v) (k + 1) := by
  intro j hj
  rw [cacheLookup_insert_ne _ _ _ _ (by omega)]
  exact h j (by omega)

theorem noKeysFrom_mono (c : Option (List (Int × Msg))) (k k2 : Nat)
    (h : noKeysFrom c k) (hk : k ≤ k2) : noKeysFrom c k2 :=
  fun j hj => h j (by omega)

theorem cacheLookup_insert_self (c : List (Int × Msg)) (k : Int) (v : Msg) :
    cacheLookup (cacheInsertA (some c) k v) k = some v := by
  simp [cacheInsertA, cacheLookup]

/-! ### Single-step lemmas for `retrieve_message`

Each lemma describes one call of `retrieve_message` on a state whose file
content at the current position is known: a successful read at the natural
position (the last offset-table entry), a successful read elsewhere, the
skip-mode analogue, and the stop cases at a missing or truncated record. -/

namespace OSITraceSingle

theorem header_take (r : Msg) (t : List Nat) :
    ((encodeRec r ++ t).take headerLength) = encodeLE r.length := by
  rw [encodeRec, List.append_assoc,
    show headerLength = (encodeLE r.length).length from rfl, List.take_left]

theorem payload_take (r : Msg) (t : List Nat) :
    ((encodeRec r ++ t).drop headerLength).take r.length = r := by
  rw [encodeRec, List.append_assoc,
    show headerLength = (encodeLE r.length).length from rfl, List.drop_left,
    show r ++ t = r ++ t from rfl,
    show r.length = r.length from rfl]
  rw [List.take_left r t]

/-- Skip-mode read of a complete record at the natural position. -/
theorem skip_step_natural (s : SingleState) (r : Msg) (t : List Nat)
    (hdrop : s.data.drop s.pos = encodeRec r ++ t)
    (hv : r.length < 4294967296)
    (hcache : cacheLookup s.message_cache s.current_index = none)
    (hlast : s.message_offsets.getLast? = some s.pos) :
    retrieve_message s none true =
      ({ s with pos := s.pos + 4 + r.length,
                current_index := s.current_index + 1,
                message_offsets := s.message_offsets ++ [s.pos + 4 + r.length] },
       .ok (.vint (s.pos + 4 + r.length))) := by
  rw [retrieve_message, retrieve_message_after_seek, hcache,
    retrieve_message_read]
  simp only [hdrop, header_take, encodeLE_length, decode_encode hv]
  norm_num [headerLength, hlast]
  omega

/-- Plain read of a complete record at the natural position: the offset
table is extended and the record is cached. -/
theorem read_step_natural (s : SingleState) (r : Msg) (t : List Nat)
    (hdrop : s.data.drop s.pos = encodeRec r ++ t)
    (hv : r.length < 4294967296)
    (hcache : cacheLookup s.message_cache s.current_index = none)
    (hlast : s.message_offsets.getLast? = some s.pos) :
    retrieve_message s none false =
      ({ s with pos := s.pos + 4 + r.length,
                current_index := s.current_index + 1,
                message_offsets := s.message_offsets ++ [s.pos + 4 + r.length],
                message_cache := (cacheInsertA s.message_cache
                  ((s.message_offsets.length : Int) - 1) r) },
       .ok (.vmsg r)) := by
  rw [retrieve_message, retrieve_message_after_seek, hcache,
    retrieve_message_read]
  have hdrop4 : s.data.drop (s.pos + headerLength)
      = (encodeRec r ++ t).drop headerLength := by
    rw [← hdrop, List.drop_drop]
  simp only [hdrop, header_take, encodeLE_length, decode_encode hv]
  rw [show s.pos + (4 : Nat) = s.pos + headerLength from rfl, hdrop4, payload_take]
  norm_num [headerLength, hlast]

/-- Plain read of a complete record away from the natural position: the
offset table and the cache are left unchanged. -/
theorem read_step_elsewhere (s : SingleState) (r : Msg) (t : List Nat)
    (last : Nat)
    (hdrop : s.data.drop s.pos = encodeRec r ++ t)
    (hv : r.length < 4294967296)
    (hcache : cacheLookup s.message_cache s.current_index = none)
    (hlast : s.message_offsets.getLast? = some last)
    (hne : s.pos ≠ last) :
    retrieve_message s none false =
      ({ s with pos := s.pos + 4 + r.length,
                current_index := s.current_index + 1 },
       .ok (.vmsg r)) := by
  rw [retrieve_message, retrieve_message_after_seek, hcache,
    retrieve_message_read]
  have hdrop4 : s.data.drop (s.pos + headerLength)
      = (encodeRec r ++ t).drop headerLength := by
    rw [← hdrop, List.drop_drop]
  simp only [hdrop, header_take, encodeLE_length, decode_encode hv]
  rw [show s.pos + (4 : Nat) = s.pos + headerLength from rfl, hdrop4, payload_take]
  norm_num [headerLength, hlast, hne]

/-- A read (skip or plain) that finds fewer than 4 bytes at the natural
position: the sentinel entry is popped, `read_complete` is set and the
position is rewound. -/
theorem stop_short_natural (s : SingleState) (skip : Bool)
    (hshort : (s.data.drop s.pos).length < 4)
    (hcache : cacheLookup s.message_cache s.current_index = none)
    (hlast : s.message_offsets.getLast? = some s.pos) :
    retrieve_message s none skip =
      ({ s with message_offsets := s.message_offsets.dropLast,
                read_complete := true }, .ok .vnone) := by
  rw [retrieve_message, retrieve_message_after_seek, hcache,
    retrieve_message_read]
  have hlen : ((s.data.drop s.pos).take headerLength).length < headerLength := by
    rw [List.length_take]
    simp only [headerLength]
    omega
  rw [if_pos hlen]
  simp [hlast]

/-- A read (skip or plain) that finds fewer than 4 bytes away from the
natural position: the state is returned entirely unchanged. -/
theorem stop_short_elsewhere (s : SingleState) (skip : Bool) (last : Nat)
    (hshort : (s.data.drop s.pos).length < 4)
    (hcache : cacheLookup s.message_cache s.current_index = none)
    (hlast : s.message_offsets.getLast? = some last)
    (hne : s.pos ≠ last) :
    retrieve_message s none skip = (s, .ok .vnone) := by
  rw [retrieve_message, retrieve_message_after_seek, hcache,
    retrieve_message_read]
  have hlen : ((s.data.drop s.pos).take headerLength).length < headerLength := by
    rw [List.length_take]
    simp only [headerLength]
    omega
  rw [if_pos hlen]
  simp [hlast, hne]

/-- A plain read that finds a full header but a truncated payload at the
natural position: pop, set `read_complete`, rewind. -/
theorem stop_payload_natural (s : SingleState) (L : Nat) (p : List Nat)
    (hdrop : s.data.drop s.pos = encodeLE L ++ p)
    (hL : L < 4294967296) (hp : p.length < L)
    (hcache : cacheLookup s.message_cache s.current_index = none)
    (hlast : s.message_offsets.getLast? = some s.pos) :
    retrieve_message s none false =
      ({ s with message_offsets := s.message_offsets.dropLast,
                read_complete := true }, .ok .vnone) := by
  rw [retrieve_message, retrieve_message_after_seek, hcache,
    retrieve_message_read]
  have hdrop4 : s.data.drop (s.pos + headerLength) = p := by
    rw [← List.drop_drop, hdrop,
      show headerLength = (encodeLE L).length from rfl, List.drop_left]
  have htake : (s.data.drop s.pos).take headerLength = encodeLE L := by
    rw [hdrop, show headerLength = (encodeLE L).length from rfl, List.take_left]
  simp only [htake, encodeLE_length, decode_encode hL]
  rw [show s.pos + (4 : Nat) = s.pos + headerLength from rfl, hdrop4,
    List.take_of_length_le (by omega)]
  norm_num [headerLength, hlast]
  omega

/-- A plain read that finds a full header but a truncated payload away
from the natural position: the state is returned unchanged. -/
theorem stop_payload_elsewhere (s : SingleState) (L : Nat) (p : List Nat)
    (last : Nat)
    (hdrop : s.data.drop s.pos = encodeLE L ++ p)
    (hL : L < 4294967296) (hp : p.length < L)
    (hcache : cacheLookup s.message_cache s.current_index = none)
    (hlast : s.message_offsets.getLast? = some last)
    (hne : s.pos ≠ last) :
    retrieve_message s none false = (s, .ok .vnone) := by
  rw [retrieve_message, retrieve_message_after_seek, hcache,
    retrieve_message_read]
  have hdrop4 : s.data.drop (s.pos + headerLength) = p := by
    rw [← List.drop_drop, hdrop,
      show headerLength = (encodeLE L).length from rfl, List.drop_left]
  have htake : (s.data.drop s.pos).take headerLength = encodeLE L := by
    rw [hdrop, show headerLength = (encodeLE L).length from rfl, List.take_left]
  simp only [htake, encodeLE_length, decode_encode hL]
  rw [show s.pos + (4 : Nat) = s.pos + headerLength from rfl, hdrop4,
    List.take_of_length_le (by omega)]
  norm_num [headerLength, hlast, hne]
  omega

/-- Splitting off the index seek of `retrieve_message` when the seek
succeeds. -/
theorem retrieve_message_seek (s : SingleState) (i : Int) (off : Nat)
    (skip : Bool) (hoff : pyIdx s.message_offsets i = some off) :
    retrieve_message s (some i) skip
      = retrieve_message { s with current_index := i, pos := off } none skip := by
  conv_lhs => rw [retrieve_message]
  conv_rhs => rw [retrieve_message]
  simp only [hoff]

/-- `pyIdx` at a natural-number index is plain list indexing. -/
theorem pyIdx_natCast (l : List Nat) (k : Nat) :
    pyIdx l (k : Int) = l.get? k := by
  simp [pyIdx]

/-- The file content seen from the natural position of a partially
consumed trace. -/
theorem drop_mid (done rest : List Msg) (tail : List Nat) :
    (encodeAll (done ++ rest) ++ tail).drop (totalSize done)
      = encodeAll rest ++ tail := by
  rw [encodeAll_append, List.append_assoc, ← length_encodeAll,
    List.drop_left]

/-- The offset table of a consumed prefix, extended by one record. -/
theorem offsets_mid_concat (done : List Msg) (r : Msg) :
    startOffsets (done ++ [r]) 0 ++ [totalSize (done ++ [r])]
      = (startOffsets done 0 ++ [totalSize done]) ++ [totalSize done + 4 + r.length] := by
  rw [startOffsets_append, totalSize_concat]
  simp [startOffsets]

/-- `drop_mid` without a trailing byte sequence. -/
theorem drop_mid0 (done rest : List Msg) :
    (encodeAll (done ++ rest)).drop (totalSize done) = encodeAll rest := by
  have h := drop_mid done rest []
  simpa using h

/-- The loop exits at once when reading is complete. -/
theorem loop_stops (fuel : Nat) (limit : Option Int) (s : SingleState)
    (h : s.read_complete = true) :
    retrieve_offsets_loop (fuel + 1) limit s = (s, .ok ()) := by
  rw [retrieve_offsets_loop, if_neg (by simp [h])]

/-- One pass of the `retrieve_offsets` skip loop without a limit consumes
the remaining records and ends with the end-of-stream probe. -/
theorem skip_loop (rest : List Msg) (done : List Msg)
    (c : Option (List (Int × Msg))) (extra : Nat)
    (hv : validRecords rest)
    (hc : ∀ i, cacheLookup c i = none) :
    retrieve_offsets_loop (rest.length + 2 + extra) none
        (midState (encodeAll (done ++ rest)) c done)
      = (doneState (encodeAll (done ++ rest)) c (done ++ rest), .ok ()) := by
  induction rest generalizing done extra with
  | nil =>
    rw [show ([] : List Msg).length + 2 + extra = (extra + 1) + 1 by simp; omega,
      retrieve_offsets_loop]
    rw [if_pos (by simp [midState, limitHolds])]
    rw [stop_short_natural _ _ (by
        show ((encodeAll (done ++ [])).drop (totalSize done)).length < 4
        rw [drop_mid0]
        simp [encodeAll])
      (by simp [midState, hc])
      (by simp [midState, List.getLast?_concat])]
    have hstate : ({ (midState (encodeAll (done ++ [])) c done) with
        message_offsets := (midState (encodeAll (done ++ [])) c done).message_offsets.dropLast,
        read_complete := true } : SingleState)
        = doneState (encodeAll (done ++ [])) c (done ++ []) := by
      simp [midState, doneState, List.dropLast_concat]
    rw [hstate]
    exact loop_stops extra none _ (by simp [doneState])
  | cons r rest ih =>
    rw [show (r :: rest).length + 2 + extra = (rest.length + 2 + extra) + 1 by simp; omega,
      retrieve_offsets_loop]
    rw [if_pos (by simp [midState, limitHolds])]
    rw [skip_step_natural _ r (encodeAll rest)
      (by
        show (encodeAll (done ++ r :: rest)).drop (totalSize done)
            = encodeRec r ++ encodeAll rest
        rw [drop_mid0]
        rfl)
      (hv r (by simp))
      (by simp [midState, hc])
      (by simp [midState, List.getLast?_concat])]
    have hstate : ({ (midState (encodeAll (done ++ r :: rest)) c done) with
        pos := (midState (encodeAll (done ++ r :: rest)) c done).pos + 4 + r.length,
        current_index := (midState (encodeAll (done ++ r :: rest)) c done).current_index + 1,
        message_offsets := (midState (encodeAll (done ++ r :: rest)) c done).message_offsets
          ++ [(midState (encodeAll (done ++ r :: rest)) c done).pos + 4 + r.length] } : SingleState)
        = midState (encodeAll ((done ++ [r]) ++ rest)) c (done ++ [r]) := by
      simp only [midState, SingleState.mk.injEq]
      refine ⟨by simp, (totalSize_concat done r).symm,
        by push_cast [List.length_append, List.length_singleton]; omega,
        (offsets_mid_concat done r).symm, trivial, trivial⟩
    rw [hstate]
    show retrieve_offsets_loop (rest.length + 2 + extra) none
        (midState (encodeAll ((done ++ [r]) ++ rest)) c (done ++ [r])) = _
    rw [ih (done ++ [r]) extra (fun r2 h2 => hv r2 (by simp [h2]))]
    have h1 : (done ++ [r]) ++ rest = done ++ r :: rest := by simp
    rw [h1]

/-- The `retrieve_offsets` loop with a positive limit stops as soon as the
offset table holds `limit` entries plus the sentinel. -/
theorem limit_loop (k : Nat) (rest done : List Msg)
    (c : Option (List (Int × Msg))) (lim : Int) (extra : Nat)
    (hv : validRecords rest)
    (hc : ∀ i, cacheLookup c i = none)
    (hk : k ≤ rest.length)
    (hlim : lim = ((done.length + k : Nat) : Int)) (h1 : 1 ≤ lim) :
    retrieve_offsets_loop (k + 1 + extra) (some lim)
        (midState (encodeAll (done ++ rest)) c done)
      = (midState (encodeAll (done ++ rest)) c (done ++ rest.take k), .ok ()) := by
  induction k generalizing done rest extra with
  | zero =>
    rw [show 0 + 1 + extra = extra + 1 by omega, retrieve_offsets_loop]
    rw [if_neg (by
      simp only [midState, limitHolds, Bool.not_eq_true, Bool.and_eq_false_iff]
      right
      simp only [List.length_append, startOffsets_length, List.length_singleton]
      have h0 : ¬ (lim == 0) = true := by
        simp only [beq_iff_eq]
        omega
      have h2 : ¬ (((done.length + 1 : Nat) : Int) ≤ lim) := by
        rw [hlim]
        push_cast
        omega
      simp only [Bool.or_eq_false_iff]
      exact ⟨by simpa using h0, by simpa using h2⟩)]
    simp
  | succ k2 ih =>
    cases rest with
    | nil => simp at hk
    | cons r rest2 =>
      rw [show k2 + 1 + 1 + extra = (k2 + 1 + extra) + 1 by omega,
        retrieve_offsets_loop]
      rw [if_pos (by
        simp only [midState, limitHolds, List.length_append, startOffsets_length,
          List.length_singleton, Bool.and_eq_true, Bool.not_eq_true]
        constructor
        · rfl
        · have h2 : (((done.length + 1 : Nat) : Int) ≤ lim) := by
            rw [hlim]; push_cast; omega
          simp only [Bool.or_eq_true, beq_iff_eq, decide_eq_true_eq]
          right
          push_cast
          push_cast at h2
          omega)]
      rw [skip_step_natural _ r (encodeAll rest2)
        (by
          show (encodeAll (done ++ r :: rest2)).drop (totalSize done)
              = encodeRec r ++ encodeAll rest2
          rw [drop_mid0]
          rfl)
        (hv r (by simp))
        (by simp [midState, hc])
        (by simp [midState, List.getLast?_concat])]
      have hstate : ({ (midState (encodeAll (done ++ r :: rest2)) c done) with
          pos := (midState (encodeAll (done ++ r :: rest2)) c done).pos + 4 + r.length,
          current_index := (midState (encodeAll (done ++ r :: rest2)) c done).current_index + 1,
          message_offsets := (midState (encodeAll (done ++ r :: rest2)) c done).message_offsets
            ++ [(midState (encodeAll (done ++ r :: rest2)) c done).pos + 4 + r.length] } : SingleState)
          = midState (encodeAll ((done ++ [r]) ++ rest2)) c (done ++ [r]) := by
        simp only [midState, SingleState.mk.injEq]
        refine ⟨by simp, (totalSize_concat done r).symm,
          by push_cast [List.length_append, List.length_singleton]; omega,
          (offsets_mid_concat done r).symm, trivial, trivial⟩
      rw [hstate]
      show retrieve_offsets_loop (k2 + 1 + extra) (some lim)
          (midState (encodeAll ((done ++ [r]) ++ rest2)) c (done ++ [r])) = _
      rw [ih rest2 (done ++ [r]) extra (fun r2 h2 => hv r2 (by simp [h2]))
        (by simpa using hk)
        (by rw [hlim]; push_cast [List.length_append, List.length_singleton]; ring)]
      have h3 : (done ++ [r]) ++ rest2.take k2 = done ++ (r :: rest2).take (k2 + 1) := by
        simp
      have h4 : (done ++ [r]) ++ rest2 = done ++ r :: rest2 := by simp
      rw [h3, h4]

/-- A full `retrieve_offsets` run with no limit on a fresh reader over a
valid trace: the resulting table holds exactly the start offset of every
record (the sentinel has been popped by the end-of-stream probe) and
reading is complete. -/
theorem retrieve_offsets_full (recs : List Msg) (flag : Bool) (extra : Nat)
    (hv : validRecords recs) :
    retrieve_offsets (recs.length + 2 + extra) none (initState (encodeAll recs) flag)
      = (doneState (encodeAll recs) (emptyCache flag) recs,
         .ok (startOffsets recs 0)) := by
  have hloop := skip_loop recs [] (emptyCache flag) extra hv
    (fun i => cacheLookup_emptyCache flag i)
  rw [List.nil_append] at hloop
  have hstate : midState (encodeAll recs) (emptyCache flag) []
      = ⟨encodeAll recs, 0, ((1 : Nat) : Int) - 1, [0], false, emptyCache flag⟩ := by
    simp [midState, totalSize, startOffsets]
  rw [hstate] at hloop
  rw [retrieve_offsets, if_neg (by simp [initState])]
  simp only [initState]
  rw [show ((if flag then some ([] : List (Int × Msg)) else none))
      = emptyCache flag from rfl]
  simp only [List.getLast?_singleton, List.length_singleton]
  rw [hloop]
  simp [doneState]

/-- A `retrieve_offsets` run with positive limit `k` on a fresh reader over
a valid trace whose record count is at least `k`: the table is extended to
`k` start offsets plus the sentinel and reading is not complete. -/
theorem retrieve_offsets_limited (k : Nat) (recs : List Msg) (flag : Bool)
    (extra : Nat) (hv : validRecords recs) (hk : k ≤ recs.length)
    (h1 : 1 ≤ k) :
    retrieve_offsets (k + 1 + extra) (some (k : Int)) (initState (encodeAll recs) flag)
      = (midState (encodeAll recs) (emptyCache flag) (recs.take k),
         .ok (startOffsets (recs.take k) 0 ++ [totalSize (recs.take k)])) := by
  have hloop := limit_loop k recs [] (emptyCache flag) (k : Int) extra hv
    (fun i => cacheLookup_emptyCache flag i) hk (by simp) (by exact_mod_cast h1)
  rw [List.nil_append] at hloop
  have hstate : midState (encodeAll recs) (emptyCache flag) []
      = ⟨encodeAll recs, 0, ((1 : Nat) : Int) - 1, [0], false, emptyCache flag⟩ := by
    simp [midState, totalSize, startOffsets]
  rw [hstate] at hloop
  rw [retrieve_offsets, if_neg (by simp [initState])]
  simp only [initState]
  rw [show ((if flag then some ([] : List (Int × Msg)) else none))
      = emptyCache flag from rfl]
  simp only [List.getLast?_singleton, List.length_singleton]
  rw [hloop]
  simp [midState]

/-- Reading by explicit index at the last known offset of a partially
consumed trace decodes the next record, extends the table and caches the
record under its index. -/
theorem read_at_cover (flag : Bool) (done : List Msg) (r : Msg)
    (rest : List Msg) (hvr : r.length < 4294967296) :
    retrieve_message (midState (encodeAll (done ++ r :: rest)) (emptyCache flag) done)
        (some (done.length : Int)) false
      = (midState (encodeAll (done ++ r :: rest))
           (cacheInsertA (emptyCache flag) (done.length : Int) r) (done ++ [r]),
         .ok (.vmsg r)) := by
  rw [retrieve_message_seek _ _ (totalSize done) false (by
      rw [pyIdx_natCast]
      simp only [midState]
      rw [show done.length = (startOffsets done 0).length
          from (startOffsets_length done 0).symm]
      exact List.get?_concat_length _ _)]
  have hid : ({ (midState (encodeAll (done ++ r :: rest)) (emptyCache flag) done) with
      current_index := (done.length : Int), pos := totalSize done } : SingleState)
      = midState (encodeAll (done ++ r :: rest)) (emptyCache flag) done := by
    simp [midState]
  rw [hid]
  rw [read_step_natural _ r (encodeAll rest)
    (by
      show (encodeAll (done ++ r :: rest)).drop (totalSize done)
          = encodeRec r ++ encodeAll rest
      rw [drop_mid0]; rfl)
    hvr
    (by
      show cacheLookup (emptyCache flag) (midState _ _ done).current_index = none
      exact cacheLookup_emptyCache flag _)
    (by simp [midState, List.getLast?_concat])]
  have hfinal : ({ (midState (encodeAll (done ++ r :: rest)) (emptyCache flag) done) with
      pos := (midState (encodeAll (done ++ r :: rest)) (emptyCache flag) done).pos + 4 + r.length,
      current_index := (midState (encodeAll (done ++ r :: rest)) (emptyCache flag) done).current_index + 1,
      message_offsets := (midState (encodeAll (done ++ r :: rest)) (emptyCache flag) done).message_offsets
        ++ [(midState (encodeAll (done ++ r :: rest)) (emptyCache flag) done).pos + 4 + r.length],
      message_cache := (cacheInsertA
        (midState (encodeAll (done ++ r :: rest)) (emptyCache flag) done).message_cache
        (((midState (encodeAll (done ++ r :: rest)) (emptyCache flag) done).message_offsets.length : Int) - 1)
        r) } : SingleState)
      = midState (encodeAll (done ++ r :: rest))
          (cacheInsertA (emptyCache flag) (done.length : Int) r) (done ++ [r]) := by
    simp only [midState, SingleState.mk.injEq]
    refine ⟨trivial, (totalSize_concat done r).symm,
      by rw [List.length_append, List.length_singleton]; push_cast; ring,
      ?_, trivial, ?_⟩
    · have h := offsets_mid_concat done r
      exact h.symm
    · congr 1
      rw [List.length_append, startOffsets_length, List.length_singleton]
      push_cast
      omega
  rw [hfinal]

/-- A cold `get_message_by_index` on a fresh reader over a valid trace:
the offset table gets extended up to the requested record (skip mode,
without caching), then the record is read by explicit index, appended to
the table and cached. -/
theorem get_cold (flag : Bool) (done : List Msg) (r : Msg) (rest : List Msg)
    (hv : validRecords (done ++ r :: rest)) :
    get_message_by_index ((done ++ r :: rest).length + 2)
        (initState (encodeAll (done ++ r :: rest)) flag) (done.length : Int)
      = (midState (encodeAll (done ++ r :: rest))
           (cacheInsertA (emptyCache flag) (done.length : Int) r) (done ++ [r]),
         .ok (.vmsg r)) := by
  have hvr : r.length < 4294967296 := hv r (by simp)
  have hinit : initState (encodeAll (done ++ r :: rest)) flag
      = midState (encodeAll (done ++ r :: rest)) (emptyCache flag) [] := by
    simp [initState, midState, totalSize, startOffsets, emptyCache]
  cases done with
  | nil =>
    rw [get_message_by_index]
    rw [if_neg (by simp [initState])]
    simp only []
    rw [show cacheLookup (initState (encodeAll ([] ++ r :: rest)) flag).message_cache
        ((List.length ([] : List Msg) : Nat) : Int) = none by
      simp only [initState]
      rw [show ((if flag then some ([] : List (Int × Msg)) else none))
          = emptyCache flag from rfl]
      exact cacheLookup_emptyCache flag _]
    rw [hinit]
    exact read_at_cover flag [] r rest hvr
  | cons d ds =>
    rw [get_message_by_index]
    rw [if_pos (by simp [initState])]
    have harith : ((d :: ds) ++ r :: rest).length + 2
        = (d :: ds).length + 1 + (rest.length + 2) := by
      simp
      omega
    rw [harith]
    rw [retrieve_offsets_limited ((d :: ds).length) (((d :: ds)) ++ r :: rest) flag
      (rest.length + 2) hv (by simp) (by simp)]
    rw [List.take_left]
    simp only []
    rw [show cacheLookup (midState (encodeAll ((d :: ds) ++ r :: rest)) (emptyCache flag)
        (d :: ds)).message_cache (((d :: ds).length : Nat) : Int) = none by
      exact cacheLookup_emptyCache flag _]
    exact read_at_cover flag (d :: ds) r rest hvr

/-- Shape of the state after one natural read from `midState`. -/
theorem mid_next (D : List Nat) (c : Option (List (Int × Msg)))
    (done : List Msg) (r : Msg) :
    ({ (midState D c done) with
        pos := (midState D c done).pos + 4 + r.length,
        current_index := (midState D c done).current_index + 1,
        message_offsets := (midState D c done).message_offsets
          ++ [(midState D c done).pos + 4 + r.length],
        message_cache := (cacheInsertA (midState D c done).message_cache
          (((midState D c done).message_offsets.length : Int) - 1) r) } : SingleState)
      = midState D (cacheInsertA c (done.length : Int) r) (done ++ [r]) := by
  simp only [midState, SingleState.mk.injEq]
  refine ⟨trivial, (totalSize_concat done r).symm,
    by rw [List.length_append, List.length_singleton]; push_cast; ring,
    (offsets_mid_concat done r).symm, trivial, ?_⟩
  congr 1
  rw [List.length_append, startOffsets_length, List.length_singleton]
  push_cast
  omega

/-- Shape of the state after the end-of-stream probe from `midState`. -/
theorem mid_stop (D : List Nat) (c : Option (List (Int × Msg)))
    (done : List Msg) :
    ({ (midState D c done) with
        message_offsets := (midState D c done).message_offsets.dropLast,
        read_complete := true } : SingleState) = doneState D c done := by
  simp [midState, doneState, List.dropLast_concat]

/-- The remaining file bytes at the end of the encoded records. -/
theorem drop_end (recs : List Msg) (tail : List Nat) :
    (encodeAll recs ++ tail).drop (totalSize recs) = tail := by
  rw [← length_encodeAll, List.drop_left]

theorem totalSize_dropLast_lt (recs : List Msg) (h : recs ≠ []) :
    totalSize recs.dropLast < totalSize recs := by
  conv_rhs => rw [← List.dropLast_append_getLast h]
  rw [totalSize_concat]
  omega

theorem noKeysFrom_cacheAfter (c : Option (List (Int × Msg))) (k : Nat)
    (rs : List Msg) (h : noKeysFrom c k) :
    noKeysFrom (cacheAfter c k rs) (k + rs.length) := by
  induction rs generalizing c k with
  | nil => simpa using h
  | cons r rs ih =>
    have h2 := ih (cacheInsertA c (k : Int) r) (k + 1) (noKeysFrom_insert c k r h)
    rw [show k + (r :: rs).length = k + 1 + rs.length by simp; omega]
    exact h2

/-- Iterating a reader that sits at the natural position past `done` over
a trace ending in an empty or truncated byte sequence yields exactly the
remaining complete records, caches them, pops the sentinel at the probe
and reports no error. -/
theorem iter_loop_fresh (rest done : List Msg)
    (c : Option (List (Int × Msg))) (tail : List Nat) (extra : Nat)
    (hv : validRecords rest)
    (htail : tail = [] ∨ truncStop tail)
    (hc : noKeysFrom c done.length) :
    iterLoop (rest.length + 1 + extra)
        (midState (encodeAll (done ++ rest) ++ tail) c done)
      = (rest,
         doneState (encodeAll (done ++ rest) ++ tail)
           (cacheAfter c done.length rest) (done ++ rest),
         none) := by
  induction rest generalizing done c extra with
  | nil =>
    rw [show ([] : List Msg).length + 1 + extra = extra + 1 by
      simp only [List.length_nil]; omega, iterLoop]
    have hdropt : ((midState (encodeAll (done ++ []) ++ tail) c done).data).drop
        ((midState (encodeAll (done ++ []) ++ tail) c done).pos) = tail := by
      show ((encodeAll (done ++ []) ++ tail)).drop (totalSize done) = tail
      rw [List.append_nil]
      exact drop_end done tail
    have hcache : cacheLookup
        (midState (encodeAll (done ++ []) ++ tail) c done).message_cache
        (midState (encodeAll (done ++ []) ++ tail) c done).current_index = none := by
      show cacheLookup c ((done.length : Nat) : Int) = none
      exact hc done.length (le_refl _)
    have hlast : (midState (encodeAll (done ++ []) ++ tail) c done).message_offsets.getLast?
        = some (midState (encodeAll (done ++ []) ++ tail) c done).pos := by
      simp [midState, List.getLast?_concat]
    have hstep : retrieve_message (midState (encodeAll (done ++ []) ++ tail) c done) none false
        = ({ (midState (encodeAll (done ++ []) ++ tail) c done) with
            message_offsets := (midState (encodeAll (done ++ []) ++ tail) c done).message_offsets.dropLast,
            read_complete := true }, .ok .vnone) := by
      rcases htail with h0 | h4 | hbad
      · exact stop_short_natural _ _ (by rw [hdropt, h0]; simp) hcache hlast
      · exact stop_short_natural _ _ (by rw [hdropt]; omega) hcache hlast
      · obtain ⟨L, p, hsplit, hL, hp⟩ := hbad
        exact stop_payload_natural _ L p (by rw [hdropt, hsplit]) hL hp hcache hlast
    rw [hstep, mid_stop]
    simp [cacheAfter]
  | cons r rest ih =>
    rw [show (r :: rest).length + 1 + extra = (rest.length + 1 + extra) + 1 by simp; omega,
      iterLoop]
    have hdropr : ((midState (encodeAll (done ++ r :: rest) ++ tail) c done).data).drop
        ((midState (encodeAll (done ++ r :: rest) ++ tail) c done).pos)
        = encodeRec r ++ (encodeAll rest ++ tail) := by
      show ((encodeAll (done ++ r :: rest) ++ tail)).drop (totalSize done)
          = encodeRec r ++ (encodeAll rest ++ tail)
      rw [drop_mid]
      simp [encodeAll]
    rw [read_step_natural _ r (encodeAll rest ++ tail) hdropr (hv r (by simp))
      (by
        show cacheLookup c ((done.length : Nat) : Int) = none
        exact hc done.length (le_refl _))
      (by simp [midState, List.getLast?_concat])]
    rw [mid_next]
    have harr : (encodeAll (done ++ r :: rest) ++ tail)
        = (encodeAll ((done ++ [r]) ++ rest) ++ tail) := by
      rw [show (done ++ [r]) ++ rest = done ++ r :: rest by simp]
    rw [harr]
    show (match iterLoop (rest.length + 1 + extra)
        (midState (encodeAll ((done ++ [r]) ++ rest) ++ tail)
          (cacheInsertA c (done.length : Int) r) (done ++ [r])) with
      | (ms, s2, e) => (r :: ms, s2, e)) = _
    rw [ih (done ++ [r]) (cacheInsertA c (done.length : Int) r) extra
      (fun r2 h2 => hv r2 (by simp [h2]))
      (by
        rw [List.length_append, List.length_singleton]
        exact noKeysFrom_insert c done.length r hc)]
    have hcac : cacheAfter (cacheInsertA c (done.length : Int) r)
        (done ++ [r]).length rest = cacheAfter c done.length (r :: rest) := by
      rw [List.length_append, List.length_singleton]
      rfl
    have hlist : (done ++ [r]) ++ rest = done ++ r :: rest := by simp
    rw [hcac, hlist]

/-- After a complete pass over a trace with at least one record, a further
`retrieve_message` returns the sentinel and leaves the state unchanged. -/
theorem done_fixpoint (recs : List Msg) (c : Option (List (Int × Msg)))
    (tail : List Nat) (hne : recs ≠ [])
    (htail : tail = [] ∨ truncStop tail)
    (hc : noKeysFrom c recs.length) :
    retrieve_message (doneState (encodeAll recs ++ tail) c recs) none false
      = (doneState (encodeAll recs ++ tail) c recs, .ok .vnone) := by
  have hdropt : ((doneState (encodeAll recs ++ tail) c recs).data).drop
      ((doneState (encodeAll recs ++ tail) c recs).pos) = tail :=
    drop_end recs tail
  have hcache : cacheLookup (doneState (encodeAll recs ++ tail) c recs).message_cache
      (doneState (encodeAll recs ++ tail) c recs).current_index = none :=
    hc recs.length (le_refl _)
  have hlast : (doneState (encodeAll recs ++ tail) c recs).message_offsets.getLast?
      = some (totalSize recs.dropLast) := by
    show (startOffsets recs 0).getLast? = some (totalSize recs.dropLast)
    have h := startOffsets_getLast? recs 0 hne
    simpa using h
  have hne2 : (doneState (encodeAll recs ++ tail) c recs).pos ≠ totalSize recs.dropLast := by
    show totalSize recs ≠ totalSize recs.dropLast
    have := totalSize_dropLast_lt recs hne
    omega
  rcases htail with h0 | h4 | hbad
  · exact stop_short_elsewhere _ _ _ (by rw [hdropt, h0]; simp) hcache hlast hne2
  · exact stop_short_elsewhere _ _ _ (by rw [hdropt]; omega) hcache hlast hne2
  · obtain ⟨L, p, hsplit, hL, hp⟩ := hbad
    exact stop_payload_elsewhere _ L p _ (by rw [hdropt, hsplit]) hL hp hcache hlast hne2

/-- A warm `get_message_by_index` on the state left by a cold call for the
same index returns the same record, either from the cache or by re-seeking
the recorded offset. -/
theorem get_warm (flag : Bool) (done : List Msg) (r : Msg) (rest : List Msg)
    (hv : validRecords (done ++ r :: rest)) (fuel : Nat) :
    (get_message_by_index fuel
        (midState (encodeAll (done ++ r :: rest))
          (cacheInsertA (emptyCache flag) (done.length : Int) r) (done ++ [r]))
        (done.length : Int)).2
      = .ok (.vmsg r) := by
  have hvr : r.length < 4294967296 := hv r (by simp)
  rw [get_message_by_index]
  rw [if_neg (by
    simp only [midState, List.length_append, startOffsets_length,
      List.length_singleton]
    push_cast
    omega)]
  simp only []
  cases flag with
  | true =>
    rw [show cacheLookup (midState (encodeAll (done ++ r :: rest))
        (cacheInsertA (emptyCache true) (done.length : Int) r)
        (done ++ [r])).message_cache (done.length : Int) = some r by
      show cacheLookup (cacheInsertA (some []) (done.length : Int) r)
          (done.length : Int) = some r
      exact cacheLookup_insert_self [] _ r]
  | false =>
    rw [show cacheLookup (midState (encodeAll (done ++ r :: rest))
        (cacheInsertA (emptyCache false) (done.length : Int) r)
        (done ++ [r])).message_cache (done.length : Int) = none from rfl]
    rw [retrieve_message_seek _ _ (totalSize done) false (by
      rw [pyIdx_natCast]
      show ((startOffsets (done ++ [r]) 0 ++ [totalSize (done ++ [r])]).get? done.length)
          = some (totalSize done)
      rw [List.get?_append (by rw [startOffsets_length, List.length_append,
        List.length_singleton]; omega)]
      rw [startOffsets_get? _ _ _ (by rw [List.length_append, List.length_singleton]; omega)]
      rw [List.take_left]
      simp)]
    rw [read_step_elsewhere _ r (encodeAll rest) (totalSize (done ++ [r]))
      (by
        show (encodeAll (done ++ r :: rest)).drop (totalSize done)
            = encodeRec r ++ encodeAll rest
        rw [drop_mid0]; rfl)
      hvr
      (by
        show cacheLookup (cacheInsertA (emptyCache false) (done.length : Int) r)
            (done.length : Int) = none
        rfl)
      (by simp [midState, List.getLast?_concat])
      (by
        show totalSize done ≠ totalSize (done ++ [r])
        rw [totalSize_concat]
        omega)]

/-- `get_message_by_index` one past the last record of a valid trace, on a
fresh reader: the offset table is extended to cover every record plus the
sentinel, the final seek lands at end of file and the read returns the
`None` sentinel instead of raising. -/
theorem get_at_end (recs : List Msg) (flag : Bool) (hv : validRecords recs) :
    (get_message_by_index (recs.length + 2) (initState (encodeAll recs) flag)
        (recs.length : Int)).2 = .ok .vnone := by
  cases recs with
  | nil => cases flag <;> rfl
  | cons r0 rest0 =>
    rw [get_message_by_index]
    rw [if_pos (by simp [initState])]
    rw [show (r0 :: rest0).length + 2 = (r0 :: rest0).length + 1 + 1 by omega]
    rw [retrieve_offsets_limited ((r0 :: rest0).length) (r0 :: rest0) flag 1 hv
      (le_refl _) (by simp)]
    rw [List.take_length]
    simp only []
    rw [show cacheLookup (midState (encodeAll (r0 :: rest0)) (emptyCache flag)
        (r0 :: rest0)).message_cache (((r0 :: rest0).length : Nat) : Int) = none
      from cacheLookup_emptyCache flag _]
    rw [retrieve_message_seek _ _ (totalSize (r0 :: rest0)) false (by
      rw [pyIdx_natCast]
      show ((startOffsets (r0 :: rest0) 0 ++ [totalSize (r0 :: rest0)]).get?
          (r0 :: rest0).length) = some (totalSize (r0 :: rest0))
      rw [show (r0 :: rest0).length = (startOffsets (r0 :: rest0) 0).length
        from (startOffsets_length _ 0).symm]
      exact List.get?_concat_length _ _)]
    have hid : ({ (midState (encodeAll (r0 :: rest0)) (emptyCache flag) (r0 :: rest0)) with
        current_index := (((r0 :: rest0).length : Nat) : Int),
        pos := totalSize (r0 :: rest0) } : SingleState)
        = midState (encodeAll (r0 :: rest0)) (emptyCache flag) (r0 :: rest0) := by
      simp [midState]
    rw [hid]
    rw [stop_short_natural _ _ (by
        show ((encodeAll (r0 :: rest0)).drop (totalSize (r0 :: rest0))).length < 4
        rw [← length_encodeAll, List.drop_length]
        simp)
      (cacheLookup_emptyCache flag _)
      (by simp [midState, List.getLast?_concat])]

/-- The state of a flat reader whose whole offset table is known
(`read_complete`), positioned at record `done.length` after a restart. -/
def resumeState (done rest : List Msg) (c : Option (List (Int × Msg))) :
    SingleState :=
  { data := encodeAll (done ++ rest), pos := totalSize done,
    current_index := (done.length : Int),
    message_offsets := startOffsets (done ++ rest) 0,
    read_complete := true, message_cache := c }

/-- One iteration step of `__iter__` that yields a message. -/
theorem iterLoop_step_msg (fuel : Nat) (s s1 : SingleState) (m : Msg)
    (h : retrieve_message s none false = (s1, .ok (.vmsg m))) :
    iterLoop (fuel + 1) s
      = (match iterLoop fuel s1 with | (ms, s2, e) => (m :: ms, s2, e)) := by
  rw [iterLoop, h]

/-- One iteration step of `__iter__` that hits the sentinel and stops. -/
theorem iterLoop_step_none (fuel : Nat) (s s1 : SingleState)
    (h : retrieve_message s none false = (s1, .ok .vnone)) :
    iterLoop (fuel + 1) s = ([], s1, none) := by
  rw [iterLoop, h]

/-- Iterating after a restart in the middle of a fully indexed valid trace
yields exactly the remaining records and no error. -/
theorem iter_resume (rest done : List Msg)
    (c : Option (List (Int × Msg))) (extra : Nat)
    (hv : validRecords rest) (hne : rest ≠ [])
    (hc : ∀ i, cacheLookup c i = none) :
    ∃ sEnd, iterLoop (rest.length + 1 + extra) (resumeState done rest c)
      = (rest, sEnd, none) := by
  induction rest generalizing done extra with
  | nil => exact absurd rfl hne
  | cons r rest2 ih =>
    cases rest2 with
    | nil =>
      have hstep1 := read_step_natural (resumeState done [r] c) r []
        (by
          show (encodeAll (done ++ [r])).drop (totalSize done) = encodeRec r ++ []
          rw [drop_mid0, List.append_nil]
          simp [encodeAll])
        (hv r (by simp))
        (by
          show cacheLookup c ((done.length : Nat) : Int) = none
          exact hc _)
        (by
          show (startOffsets (done ++ [r]) 0).getLast? = some (totalSize done)
          rw [startOffsets_getLast? _ _ (by simp), List.dropLast_concat]
          simp)
      rw [show ([r] : List Msg).length + 1 + extra = (extra + 1) + 1 by
        simp only [List.length_singleton]; omega]
      rw [iterLoop_step_msg (extra + 1) _ _ r hstep1]
      have hpos : (resumeState done [r] c).pos + 4 + r.length
          = totalSize (done ++ [r]) := by
        show totalSize done + 4 + r.length = totalSize (done ++ [r])
        rw [totalSize_concat]
      have hstep2 := stop_short_natural
        ({ (resumeState done [r] c) with
            pos := (resumeState done [r] c).pos + 4 + r.length,
            current_index := (resumeState done [r] c).current_index + 1,
            message_offsets := (resumeState done [r] c).message_offsets
              ++ [(resumeState done [r] c).pos + 4 + r.length],
            message_cache := (cacheInsertA (resumeState done [r] c).message_cache
              (((resumeState done [r] c).message_offsets.length : Int) - 1) r) })
        false
        (by
          show ((encodeAll (done ++ [r])).drop
            ((resumeState done [r] c).pos + 4 + r.length)).length < 4
          rw [hpos, ← length_encodeAll, List.drop_length]
          simp)
        (by
          show cacheLookup (cacheInsertA c
            (((startOffsets (done ++ [r]) 0).length : Int) - 1) r)
            (((done.length : Nat) : Int) + 1) = none
          rw [cacheLookup_insert_ne _ _ _ _ (by
            rw [startOffsets_length, List.length_append, List.length_singleton]
            push_cast
            omega)]
          exact hc _)
        (List.getLast?_concat _)
      rw [iterLoop_step_none extra _ _ hstep2]
      exact ⟨_, rfl⟩
    | cons r2 rest3 =>
      have hstep := read_step_elsewhere (resumeState done (r :: r2 :: rest3) c)
        r (encodeAll (r2 :: rest3))
        (0 + totalSize (done ++ r :: r2 :: rest3).dropLast)
        (by
          show (encodeAll (done ++ r :: r2 :: rest3)).drop (totalSize done)
              = encodeRec r ++ encodeAll (r2 :: rest3)
          rw [drop_mid0]
          rfl)
        (hv r (by simp))
        (by
          show cacheLookup c ((done.length : Nat) : Int) = none
          exact hc _)
        (startOffsets_getLast? _ 0 (by simp))
        (by
          show totalSize done ≠ 0 + totalSize (done ++ r :: r2 :: rest3).dropLast
          rw [List.dropLast_append_cons, totalSize_append]
          show totalSize done
              ≠ 0 + (totalSize done + totalSize (r :: (r2 :: rest3).dropLast))
          simp only [totalSize]
          omega)
      rw [show (r :: r2 :: rest3).length + 1 + extra
          = ((r2 :: rest3).length + 1 + extra) + 1 by
        simp only [List.length_cons]; omega]
      rw [iterLoop_step_msg _ _ _ r hstep]
      have hstate : ({ (resumeState done (r :: r2 :: rest3) c) with
          pos := (resumeState done (r :: r2 :: rest3) c).pos + 4 + r.length,
          current_index := (resumeState done (r :: r2 :: rest3) c).current_index + 1 }
          : SingleState)
          = resumeState (done ++ [r]) (r2 :: rest3) c := by
        simp only [resumeState, SingleState.mk.injEq]
        refine ⟨by rw [show (done ++ [r]) ++ r2 :: rest3 = done ++ r :: r2 :: rest3 by simp],
          (totalSize_concat done r).symm,
          by rw [List.length_append, List.length_singleton]; push_cast; ring,
          by rw [show (done ++ [r]) ++ r2 :: rest3 = done ++ r :: r2 :: rest3 by simp],
          trivial, trivial⟩
      rw [hstate]
      obtain ⟨sEnd, hEnd⟩ := ih (done ++ [r]) extra
        (fun r3 h3 => hv r3 (by simp [h3])) (by simp)
      rw [hEnd]
      exact ⟨sEnd, rfl⟩

/-- Restarting a fully indexed reader from a covered index seeks to the
recorded start offset of that record. -/
theorem restart_covered (recs : List Msg) (flag : Bool) (i : Nat)
    (hi : i < recs.length) :
    restart (doneState (encodeAll recs) (emptyCache flag) recs) (some (i : Int))
      = (resumeState (recs.take i) (recs.drop i) (emptyCache flag), .ok ()) := by
  rw [restart]
  have hci : (if (i : Int) = 0 then (0 : Int) else (i : Int)) = (i : Int) := by
    split
    · omega
    · rfl
  rw [hci]
  have hoff : pyIdx (doneState (encodeAll recs) (emptyCache flag) recs).message_offsets
      (i : Int) = some (totalSize (recs.take i)) := by
    rw [pyIdx_natCast]
    show (startOffsets recs 0).get? i = some (totalSize (recs.take i))
    rw [startOffsets_get? recs 0 i hi]
    simp
  rw [hoff]
  have hstate : ({ (doneState (encodeAll recs) (emptyCache flag) recs) with
      current_index := (i : Int), pos := totalSize (recs.take i) } : SingleState)
      = resumeState (recs.take i) (recs.drop i) (emptyCache flag) := by
    simp only [doneState, resumeState, SingleState.mk.injEq]
    refine ⟨by rw [List.take_append_drop], trivial,
      by rw [List.length_take]; congr 1; omega,
      by rw [List.take_append_drop], trivial, trivial⟩
  show ({ (doneState (encodeAll recs) (emptyCache flag) recs) with
      current_index := (i : Int), pos := totalSize (recs.take i) },
      (Except.ok () : Except PyErr Unit))
    = (resumeState (recs.take i) (recs.drop i) (emptyCache flag), .ok ())
  rw [hstate]

/-- A plain read on a reader with a non-empty offset table never raises:
it returns a message or the sentinel. -/
theorem read_no_error (s : SingleState) (h : s.message_offsets ≠ []) :
    ∃ v, (retrieve_message_read s false).2 = .ok v := by
  obtain ⟨last, hlast⟩ : ∃ last, s.message_offsets.getLast? = some last := by
    cases hmo : s.message_offsets.getLast? with
    | none => exact absurd (List.getLast?_eq_none.mp hmo) h
    | some x => exact ⟨x, rfl⟩
  unfold retrieve_message_read
  simp only [hlast]
  split_ifs <;> exact ⟨_, rfl⟩

/-- A `retrieve_message` call whose effective start position is not the
last offset-table entry leaves the offset table and the cache unchanged
(the frame of out-of-band reads). -/
theorem read_elsewhere_frame (s : SingleState) (skip : Bool) (last : Nat)
    (hlast : s.message_offsets.getLast? = some last) (hne : s.pos ≠ last) :
    ((retrieve_message_read s skip).1.message_offsets = s.message_offsets ∧
     (retrieve_message_read s skip).1.message_cache = s.message_cache) := by
  unfold retrieve_message_read
  simp only [hlast]
  split_ifs <;> simp_all

/-- The cache fast path and the read path both preserve the offset table
and the cache when the effective position is off the last table entry. -/
theorem after_seek_frame (s : SingleState) (skip : Bool) (last : Nat)
    (hlast : s.message_offsets.getLast? = some last) (hne : s.pos ≠ last) :
    ((retrieve_message_after_seek s skip).1.message_offsets = s.message_offsets ∧
     (retrieve_message_after_seek s skip).1.message_cache = s.message_cache) := by
  unfold retrieve_message_after_seek
  cases hcl : cacheLookup s.message_cache s.current_index with
  | none => exact read_elsewhere_frame s skip last hlast hne
  | some m =>
    simp only []
    split_ifs <;>
      (try cases pyIdx s.message_offsets (s.current_index + 1)) <;> simp

/-- The effective start position of a `retrieve_message` call: the current
file position, or the offset the index argument seeks to. -/
def effStart (s : SingleState) (index : Option Int) : Option Nat :=
  match index with
  | none => some s.pos
  | some i => pyIdx s.message_offsets i

/-- Claim C5 helper: a `retrieve_message` call whose effective start is
not the last table entry leaves the offset table and the cache unchanged. -/
theorem retrieve_frame (s : SingleState) (index : Option Int) (skip : Bool)
    (p last : Nat)
    (hlast : s.message_offsets.getLast? = some last)
    (hstart : effStart s index = some p) (hne : p ≠ last) :
    ((retrieve_message s index skip).1.message_offsets = s.message_offsets ∧
     (retrieve_message s index skip).1.message_cache = s.message_cache) := by
  cases index with
  | none =>
    have hp : s.pos = p := by
      simpa [effStart] using hstart
    exact after_seek_frame s skip last hlast (by rw [hp]; exact hne)
  | some i =>
    have hpy : pyIdx s.message_offsets i = some p := by
      simpa [effStart] using hstart
    rw [retrieve_message_seek s i p skip hpy]
    show ((retrieve_message_after_seek { s with current_index := i, pos := p } skip).1.message_offsets
          = s.message_offsets ∧ _)
    exact after_seek_frame { s with current_index := i, pos := p } skip last hlast hne

end OSITraceSingle

/-! ### The chunked (mcap) reader

`IndexedSeekingReader` of `indexed_mcap_reader.py`.  The mcap container and
its external collaborators are modelled as deterministic data on an
abstract `McapFile`: topics and schema names are opaque identifiers
(`Nat`), a message record carries its channel id, log time and payload. -/

/-- An mcap `Message` record. -/
structure McapRecord where
  channel_id : Nat
  log_time : Nat
  data : List Nat
deriving DecidableEq, Repr

/-- One record inside a decompressed chunk: a message, or a record of
another kind (schema, channel, ...), which `iter_messages` and `get` skip
but which still occupies a position in the chunk enumeration. -/
inductive ChunkRecord
  | message (m : McapRecord)
  | other
deriving DecidableEq, Repr

/-- The decompressed body of one chunk, keyed by its physical offset
(models seeking to `chunk_start_offset` and `Chunk.read` +
`breakup_chunk`). -/
structure ChunkData where
  chunk_start_offset : Nat
  records : List ChunkRecord
deriving DecidableEq, Repr

/-- A `ChunkIndex` entry of the summary. -/
structure ChunkIndexRec where
  chunk_start_offset : Nat
  message_start_time : Nat
  message_end_time : Nat
  channel_ids : List Nat
deriving DecidableEq, Repr

/-- A `Channel` record of the summary. -/
structure ChannelRec where
  topic : Nat
  schema_id : Nat
deriving DecidableEq, Repr

/-- The pre-parsed summary block (external collaborator). -/
structure McapSummary where
  channels : List (Nat × ChannelRec)
  schemas : List (Nat × Nat)
  chunk_indexes : List ChunkIndexRec
deriving DecidableEq, Repr

/-- The mcap container as seen by the reader.  `nonseek` models the
external `NonSeekingReader.iter_messages` fallback (a pure function of the
stream content and the filter arguments, after the seek to position 0);
`seekingDecoded` models `SeekingReader.iter_decoded_messages` used by the
non-chunked lookup path of `get`; `decoderFor` models the decoder factory
resolution for a channel (its encoding/schema pair). -/
structure McapFile where
  summary : Option McapSummary
  chunks : List ChunkData
  nonseek : Option (List Nat) → Option Nat → Option Nat → Bool →
    List (Option Nat × Nat × McapRecord)
  seekingDecoded : List (Option Nat × Nat × McapRecord × List Nat)
  decoderFor : Nat → Option (List Nat → List Nat)

/-- Errors of the chunked reader. -/
inductive McapErr
  | indexError
  | keyError
  | badChunk
  | decoderNotFound
  | fuelOut
deriving DecidableEq, Repr

/-- An item of the external `MessageQueue`: a chunk index awaiting
decompression, or a single message tagged with its originating chunk
offset and in-chunk position. -/
inductive QItem
  | chunk (ci : ChunkIndexRec)
  | msg (schema : Option Nat) (channel_id : Nat) (rec : McapRecord)
      (chunk_offset : Nat) (idx_in_chunk : Nat)
deriving DecidableEq, Repr

/-- Priority key of a queue item in log-time order: chunks by their
minimum message time, messages by (log time, chunk offset, in-chunk
position). -/
def qKey : QItem → Nat × Nat × Nat
  | .chunk ci => (ci.message_start_time, ci.chunk_start_offset, 0)
  | .msg _ _ rec off j => (rec.log_time, off, j)

/-- Chunk keys for reverse iteration use the maximum message time. -/
def qKeyRev : QItem → Nat × Nat × Nat
  | .chunk ci => (ci.message_end_time, ci.chunk_start_offset, 0)
  | .msg _ _ rec off j => (rec.log_time, off, j)

/-- Lexicographic strict order on keys. -/
def keyLt (a b : Nat × Nat × Nat) : Bool :=
  a.1 < b.1 || (a.1 = b.1 && (a.2.1 < b.2.1 ||
    (a.2.1 = b.2.1 && a.2.2 < b.2.2)))

/-- Models the external mcap `MessageQueue`: a stable priority queue.
Items are kept in push order with a running counter; `pop` removes the
item with the least key (greatest, in reverse mode), breaking ties by
push order, and plain FIFO order when `log_time_order` is false. -/
structure MsgQueue where
  items : List (Nat × QItem)
  counter : Nat
  log_time_order : Bool
  reverse : Bool
deriving DecidableEq, Repr

def MsgQueue.push (q : MsgQueue) (it : QItem) : MsgQueue :=
  { q with items := q.items ++ [(q.counter, it)], counter := q.counter + 1 }

/-- `a` is popped in preference to `b`. -/
def qBetter (lto rev : Bool) (a b : Nat × QItem) : Bool :=
  if lto then
    if rev then
      keyLt (qKeyRev b.2) (qKeyRev a.2) ||
        (qKeyRev a.2 = qKeyRev b.2 && a.1 < b.1)
    else
      keyLt (qKey a.2) (qKey b.2) || (qKey a.2 = qKey b.2 && a.1 < b.1)
  else
    a.1 < b.1

def MsgQueue.pop (q : MsgQueue) : Option (QItem × MsgQueue) :=
  match q.items with
  | [] => none
  | x :: xs =>
    let best := (x :: xs).foldl
      (fun acc y => if qBetter q.log_time_order q.reverse y acc then y else acc) x
    some (best.2, { q with items := q.items.eraseP (fun y => y.1 == best.1) })

/-- Association lookup, modelling Python dict subscription (a missing key
is a `KeyError`). -/
def assocFind {α : Type} (l : List (Nat × α)) (k : Nat) : Option α :=
  (l.find? (fun p => p.1 == k)).map (fun p => p.2)

/-- `None if channel.schema_id == 0 else summary.schemas[channel.schema_id]`. -/
def schemaOf (summary : McapSummary) (ch : ChannelRec) :
    Except McapErr (Option Nat) :=
  if ch.schema_id = 0 then .ok none
  else
    match assocFind summary.schemas ch.schema_id with
    | none => .error .keyError
    | some s => .ok (some s)

/-- Models the external `_chunks_matching_topics`: the chunk indexes whose
time range intersects the window and that hold a channel matching the
topic filter. -/
def chunksMatchingTopics (summary : McapSummary) (topics : Option (List Nat))
    (startTime endTime : Option Nat) : List ChunkIndexRec :=
  summary.chunk_indexes.filter (fun ci =>
    (match startTime with
     | none => true
     | some v => decide (v ≤ ci.message_end_time)) &&
    (match endTime with
     | none => true
     | some v => decide (ci.message_start_time < v)) &&
    (match topics with
     | none => true
     | some ts => ci.channel_ids.any (fun cid =>
         match assocFind summary.channels cid with
         | some c => ts.contains c.topic
         | none => false)))

/-- Models seeking to a chunk offset and reading the chunk
(`Chunk.read` after `seek(chunk_start_offset + 1 + 8)`). -/
def findChunk (file : McapFile) (off : Nat) : Option ChunkData :=
  file.chunks.find? (fun c => c.chunk_start_offset == off)

/-- The per-record filter and push loop over one decompressed chunk inside
`iter_messages`: non-message records are skipped but counted in the
enumeration, then the channel is looked up, the topic and time filters are
applied and the message is pushed keyed by its position. -/
def pushMessages (summary : McapSummary) (topics : Option (List Nat))
    (startTime endTime : Option Nat) (chunkOff : Nat) :
    List ChunkRecord → Nat → MsgQueue → Except McapErr MsgQueue
  | [], _, q => .ok q
  | .other :: rest, j, q =>
    pushMessages summary topics startTime endTime chunkOff rest (j + 1) q
  | .message rec :: rest, j, q =>
    match assocFind summary.channels rec.channel_id with
    | none => .error .keyError
    | some channel =>
      if (match topics with
          | none => false
          | some ts => !(ts.contains channel.topic)) then
        pushMessages summary topics startTime endTime chunkOff rest (j + 1) q
      else if (match startTime with
          | none => false
          | some v => decide (rec.log_time < v)) then
        pushMessages summary topics startTime endTime chunkOff rest (j + 1) q
      else if (match endTime with
          | none => false
          | some v => decide (v ≤ rec.log_time)) then
        pushMessages summary topics startTime endTime chunkOff rest (j + 1) q
      else
        match schemaOf summary channel with
        | .error e => .error e
        | .ok sch =>
          pushMessages summary topics startTime endTime chunkOff rest (j + 1)
            (q.push (.msg sch rec.channel_id rec chunkOff j))

/-- A message yielded by the chunked merge, with its provenance. -/
structure Yielded where
  schema : Option Nat
  channel_id : Nat
  message : McapRecord
  chunk_offset : Nat
  idx_in_chunk : Nat
deriving DecidableEq, Repr

/-- The main merge loop of `iter_messages`: pop; a chunk index is read and
its matching messages pushed, a message is emitted.  Returns the emitted
messages in order together with the error, if one escaped the generator. -/
def mergeLoop (file : McapFile) (summary : McapSummary)
    (topics : Option (List Nat)) (startTime endTime : Option Nat) :
    Nat → MsgQueue → List Yielded → List Yielded × Option McapErr
  | 0, _, acc => (acc, some .fuelOut)
  | fuel + 1, q, acc =>
    match q.pop with
    | none => (acc, none)
    | some (.chunk ci, q1) =>
      match findChunk file ci.chunk_start_offset with
      | none => (acc, some .badChunk)
      | some cd =>
        match pushMessages summary topics startTime endTime
            ci.chunk_start_offset cd.records 0 q1 with
        | .error e => (acc, some e)
        | .ok q2 => mergeLoop file summary topics startTime endTime fuel q2 acc
    | some (.msg sch ch rec off j, q1) =>
      mergeLoop file summary topics startTime endTime fuel q1
        (acc ++ [⟨sch, ch, rec, off, j⟩])

/-- Fuel that dominates the merge: every matched chunk index plus all the
records its chunk can push, plus one final pop check. -/
def chunkCost (file : McapFile) (ci : ChunkIndexRec) : Nat :=
  1 + (match findChunk file ci.chunk_start_offset with
       | some cd => cd.records.length
       | none => 0)

def mergeFuel (file : McapFile) (matched : List ChunkIndexRec) : Nat :=
  matched.foldl (fun a ci => a + chunkCost file ci) 0 + 1

def initialQueue (matched : List ChunkIndexRec) (lto rev : Bool) : MsgQueue :=
  matched.foldl (fun q ci => q.push (.chunk ci)) ⟨[], 0, lto, rev⟩

/-- State of an `IndexedSeekingReader`: the underlying file, the global
index map (global index to (chunk offset or `None`, in-chunk position or
global index)) and the set of channel ids whose decoder is cached. -/
structure IdxState where
  file : McapFile
  index_map : List (Option Nat × Nat)
  decoders : List Nat

/-- One output tuple of `iter_messages`:
(schema, channel, message, global index). -/
abbrev OutTuple := Option Nat × Nat × McapRecord × Nat

/-- The `(schema, channel, message, global_index)` tuples of the merge
output. -/
def withIdx (ys : List Yielded) : List OutTuple :=
  ys.enum.map (fun p => (p.2.schema, p.2.channel_id, p.2.message, p.1))

/-- Index-map entries recorded for the merge output. -/
def mapOf (ys : List Yielded) : List (Option Nat × Nat) :=
  ys.map (fun y => (some y.chunk_offset, y.idx_in_chunk))

/-- Output tuples of the non-seeking fallback. -/
def fallbackOut (ms : List (Option Nat × Nat × McapRecord)) : List OutTuple :=
  ms.enum.map (fun p => (p.2.1, p.2.2.1, p.2.2.2, p.1))

/-- Index-map entries of the non-seeking fallback (`(None, global_idx)`). -/
def fallbackMap (ms : List (Option Nat × Nat × McapRecord)) :
    List (Option Nat × Nat) :=
  ms.enum.map (fun p => ((none : Option Nat), p.1))

namespace IndexedSeekingReader

/-- `IndexedSeekingReader.iter_messages`, driven to completion: clears the
index map, falls back to the non-seeking reader when there is no summary
or no chunk index, and otherwise runs the merge.  Returns the new reader
state, the yielded tuples and the error that escaped the generator, if
any. -/
def iter_messages (s : IdxState) (topics : Option (List Nat))
    (startTime endTime : Option Nat) (lto rev : Bool) :
    IdxState × List OutTuple × Option McapErr :=
  match s.file.summary with
  | none =>
    let ms := s.file.nonseek topics startTime endTime lto
    ({ s with index_map := fallbackMap ms }, fallbackOut ms, none)
  | some summary =>
    if summary.chunk_indexes.length = 0 then
      let ms := s.file.nonseek topics startTime endTime lto
      ({ s with index_map := fallbackMap ms }, fallbackOut ms, none)
    else
      let matched := chunksMatchingTopics summary topics startTime endTime
      match mergeLoop s.file summary topics startTime endTime
          (mergeFuel s.file matched) (initialQueue matched lto rev) [] with
      | (ys, err) => ({ s with index_map := mapOf ys }, withIdx ys, err)

/-- The decoder resolution of `get` (`decoded_message`): a cached decoder
is reused, otherwise the factories resolve one, which is then cached;
failure raises `DecoderNotFoundError`. -/
def decoded_message (s : IdxState) (rec : McapRecord) :
    IdxState × Except McapErr (List Nat) :=
  if s.decoders.contains rec.channel_id then
    match s.file.decoderFor rec.channel_id with
    | some d => (s, .ok (d rec.data))
    | none => (s, .error .decoderNotFound)
  else
    match s.file.decoderFor rec.channel_id with
    | some d => ({ s with decoders := rec.channel_id :: s.decoders },
        .ok (d rec.data))
    | none => (s, .error .decoderNotFound)

/-- The tuple shape returned by `get` (`DecodedMessageTuple`). -/
structure DecodedTuple where
  schema : Option Nat
  channel_id : Nat
  message : McapRecord
  decoded : List Nat
deriving DecidableEq, Repr

/-- The linear scan of `get` over the enumerated records of one chunk:
skip non-messages, stop at the recorded in-chunk position. -/
def scanForMessage : List ChunkRecord → Nat → Nat → Option McapRecord
  | [], _, _ => none
  | .other :: rest, j, target => scanForMessage rest (j + 1) target
  | .message m :: rest, j, target =>
    if j = target then some m else scanForMessage rest (j + 1) target

/-- The lookup part of `get`, after the index map covers the index: bounds
check, entry lookup, then either the linear pass over the externally
decoded stream (fallback entries) or the chunk re-read, scan and decode. -/
def getLookup (s : IdxState) (gi : Int) : IdxState × Except McapErr DecodedTuple :=
  if gi < 0 || (s.index_map.length : Int) ≤ gi then (s, .error .indexError)
  else
    match s.index_map.get? gi.toNat with
    | none => (s, .error .indexError)
    | some (none, _) =>
      match s.file.seekingDecoded.get? gi.toNat with
      | some (sch, ch, rec, dec) => (s, .ok ⟨sch, ch, rec, dec⟩)
      | none => (s, .error .indexError)
    | some (some chunk_offset, idx_in_chunk) =>
      match findChunk s.file chunk_offset with
      | none => (s, .error .badChunk)
      | some cd =>
        match scanForMessage cd.records 0 idx_in_chunk with
        | none => (s, .error .indexError)
        | some rec =>
          match s.file.summary with
          | none => (s, .error .keyError)
          | some summary =>
            match assocFind summary.channels rec.channel_id with
            | none => (s, .error .keyError)
            | some channel =>
              match schemaOf summary channel with
              | .error e => (s, .error e)
              | .ok sch =>
                match decoded_message s rec with
                | (s1, .ok dec) => (s1, .ok ⟨sch, rec.channel_id, rec, dec⟩)
                | (s1, .error e) => (s1, .error e)

/-- `IndexedSeekingReader.get(global_index)`: when the index map does not
cover the index, `iter_messages()` is driven until the yielded global
index reaches it (the `break` leaves the map at `global_index + 1`
entries and swallows any later iteration error); then the bounds check and
the lookup run. -/
def get (s : IdxState) (gi : Int) : IdxState × Except McapErr DecodedTuple :=
  if (s.index_map.length : Int) ≤ gi then
    match iter_messages s none none none true false with
    | (sF, _, errOpt) =>
      if gi < (sF.index_map.length : Int) then
        getLookup { sF with index_map := sF.index_map.take (gi.toNat + 1) } gi
      else
        match errOpt with
        | some e => (sF, .error e)
        | none => getLookup sF gi
  else
    getLookup s gi

end IndexedSeekingReader

/-! ### The facade `OSITrace` -/

/-- The state of a `_OSITraceMulti` reader that the facade claims touch:
whether the stateful `_iter` of `__iter__` has been created. -/
structure MultiState where
  iter_active : Bool
deriving DecidableEq, Repr

/-- The active reader held by an `OSITrace` facade. -/
inductive Reader
  | single (s : SingleState)
  | multi (m : MultiState)
deriving DecidableEq

namespace OSITrace

/-- `OSITrace.retrieve_offsets`: delegates for a single-channel reader,
raises `NotImplementedError` for a multi-channel one. -/
def retrieve_offsets (fuel : Nat) (r : Reader) (limit : Option Int) :
    Reader × Except PyErr (List Nat) :=
  match r with
  | .single s =>
    match OSITraceSingle.retrieve_offsets fuel limit s with
    | (s1, res) => (.single s1, res)
  | .multi _ => (r, .error .notImplementedError)

/-- `OSITrace.retrieve_message`. -/
def retrieve_message (r : Reader) (index : Option Int) (skip : Bool) :
    Reader × Except PyErr RetVal :=
  match r with
  | .single s =>
    match OSITraceSingle.retrieve_message s index skip with
    | (s1, res) => (.single s1, res)
  | .multi _ => (r, .error .notImplementedError)

/-- `OSITrace.get_message_by_index`. -/
def get_message_by_index (fuel : Nat) (r : Reader) (index : Int) :
    Reader × Except PyErr RetVal :=
  match r with
  | .single s =>
    match OSITraceSingle.get_message_by_index fuel s index with
    | (s1, res) => (.single s1, res)
  | .multi _ => (r, .error .notImplementedError)

/-- `OSITrace.get_messages_in_index_range`. -/
def get_messages_in_index_range (fuel : Nat) (r : Reader) (b : Int)
    (endIdx : Option Int) : Reader × Except PyErr (List Msg) :=
  match r with
  | .single s =>
    match OSITraceSingle.get_messages_in_index_range fuel s b endIdx with
    | (ms, s1, none) => (.single s1, .ok ms)
    | (_, s1, some e) => (.single s1, .error e)
  | .multi _ => (r, .error .notImplementedError)

/-- `OSITrace.restart`, delegating to the active reader;
`_OSITraceMulti.restart` rejects any non-`None` index and otherwise
discards the stateful iterator. -/
def restart (r : Reader) (index : Option Int) : Reader × Except PyErr Unit :=
  match r with
  | .single s =>
    match OSITraceSingle.restart s index with
    | (s1, res) => (.single s1, res)
  | .multi m =>
    match index with
    | some _ => (r, .error .notImplementedError)
    | none => (.multi { m with iter_active := false }, .ok ())

end OSITrace

namespace IndexedSeekingReader

/-- `iter_messages` never changes the underlying file. -/
theorem iter_messages_file (s : IdxState) (t : Option (List Nat))
    (st et : Option Nat) (lto rev : Bool) :
    (iter_messages s t st et lto rev).1.file = s.file := by
  unfold iter_messages
  cases hs : s.file.summary with
  | none => rfl
  | some summary =>
    simp only []
    split
    · rfl
    · rcases hm : mergeLoop s.file summary t st et
        (mergeFuel s.file (chunksMatchingTopics summary t st et))
        (initialQueue (chunksMatchingTopics summary t st et) lto rev) []
        with ⟨ys, err⟩
      simp [hm]

/-- The output of `iter_messages` depends only on the file, not on the
index map or the decoder cache. -/
theorem iter_messages_congr (f : McapFile) (m m2 : List (Option Nat × Nat))
    (d d2 : List Nat) (t : Option (List Nat)) (st et : Option Nat)
    (lto rev : Bool) :
    (iter_messages ⟨f, m, d⟩ t st et lto rev).2
      = (iter_messages ⟨f, m2, d2⟩ t st et lto rev).2 := by
  unfold iter_messages
  cases hs : f.summary with
  | none => rfl
  | some summary =>
    simp only []
    split
    · rfl
    · rcases hm : mergeLoop f summary t st et
        (mergeFuel f (chunksMatchingTopics summary t st et))
        (initialQueue (chunksMatchingTopics summary t st et) lto rev) []
        with ⟨ys, err⟩
      simp [hm]

/-- The index map built by `iter_messages` has one entry per yielded
tuple. -/
theorem iter_messages_map_length (s : IdxState) (t : Option (List Nat))
    (st et : Option Nat) (lto rev : Bool) :
    (iter_messages s t st et lto rev).1.index_map.length
      = (iter_messages s t st et lto rev).2.1.length := by
  unfold iter_messages
  cases hs : s.file.summary with
  | none => simp [fallbackMap, fallbackOut]
  | some summary =>
    simp only []
    split
    · simp [fallbackMap, fallbackOut]
    · rcases hm : mergeLoop s.file summary t st et
        (mergeFuel s.file (chunksMatchingTopics summary t st et))
        (initialQueue (chunksMatchingTopics summary t st et) lto rev) []
        with ⟨ys, err⟩
      simp [hm, mapOf, withIdx]

/-- The decoded value depends only on the file, not on the decoder
cache. -/
theorem decoded_message_val (s s2 : IdxState) (rec : McapRecord)
    (hf : s.file = s2.file) :
    (decoded_message s rec).2 = (decoded_message s2 rec).2 := by
  unfold decoded_message
  rw [hf]
  split_ifs <;> cases hd : s2.file.decoderFor rec.channel_id <;> simp [hd]

/-- `decoded_message` changes neither the file nor the index map. -/
theorem decoded_message_state (s : IdxState) (rec : McapRecord) :
    (decoded_message s rec).1.file = s.file ∧
      (decoded_message s rec).1.index_map = s.index_map := by
  unfold decoded_message
  split_ifs <;> cases hd : s.file.decoderFor rec.channel_id <;> simp [hd]

/-- `getLookup` never changes the file or the index map. -/
theorem getLookup_state (s : IdxState) (gi : Int) :
    (getLookup s gi).1.file = s.file ∧ (getLookup s gi).1.index_map = s.index_map := by
  unfold getLookup
  split_ifs with h1
  · exact ⟨rfl, rfl⟩
  · cases hg : s.index_map.get? gi.toNat with
    | none => simp [hg]
    | some e =>
      rcases e with ⟨co, j⟩
      cases co with
      | none =>
        simp only [hg]
        cases hq : s.file.seekingDecoded.get? gi.toNat with
        | none => simp [hq]
        | some q =>
          rcases q with ⟨sch, ch, rec, dec⟩
          simp [hq]
      | some off =>
        simp only [hg]
        cases hc : findChunk s.file off with
        | none => simp [hc]
        | some cd =>
          simp only [hc]
          cases hs : scanForMessage cd.records 0 j with
          | none => simp [hs]
          | some rec =>
            simp only [hs]
            cases hsum : s.file.summary with
            | none => simp [hsum]
            | some summary =>
              simp only [hsum]
              cases hch : assocFind summary.channels rec.channel_id with
              | none => simp [hch]
              | some channel =>
                simp only [hch]
                cases hsch : schemaOf summary channel with
                | error e2 => simp [hsch]
                | ok sch =>
                  simp only [hsch]
                  have hst := decoded_message_state s rec
                  rcases hdm : decoded_message s rec with ⟨s1, r1⟩
                  rw [hdm] at hst
                  cases r1 <;> simpa using hst

/-- The result of `getLookup` depends only on the file and the index
map. -/
theorem getLookup_congr (s s2 : IdxState) (gi : Int)
    (hf : s.file = s2.file) (hm : s.index_map = s2.index_map) :
    (getLookup s gi).2 = (getLookup s2 gi).2 := by
  unfold getLookup
  rw [hf, hm]
  split_ifs with h1
  · rfl
  · cases hg : s2.index_map.get? gi.toNat with
    | none => simp [hg]
    | some e =>
      rcases e with ⟨co, j⟩
      cases co with
      | none =>
        simp only [hg]
        cases hq : s2.file.seekingDecoded.get? gi.toNat with
        | none => simp [hq]
        | some q =>
          rcases q with ⟨sch, ch, rec, dec⟩
          simp [hq]
      | some off =>
        simp only [hg]
        cases hc : findChunk s2.file off with
        | none => simp [hc]
        | some cd =>
          simp only [hc]
          cases hs : scanForMessage cd.records 0 j with
          | none => simp [hs]
          | some rec =>
            simp only [hs]
            cases hsum : s2.file.summary with
            | none => simp [hsum]
            | some summary =>
              simp only [hsum]
              cases hch : assocFind summary.channels rec.channel_id with
              | none => simp [hch]
              | some channel =>
                simp only [hch]
                cases hsch : schemaOf summary channel with
                | error e2 => simp [hsch]
                | ok sch =>
                  simp only [hsch]
                  have hd := decoded_message_val s s2 rec hf
                  rcases h2 : decoded_message s rec with ⟨sA, r1⟩
                  rcases h3 : decoded_message s2 rec with ⟨sB, r2⟩
                  rw [h2, h3] at hd
                  have hd2 : r1 = r2 := hd
                  subst hd2
                  cases r1 <;> rfl


/-- Warm `get` after a successful cold `get` of the same index returns the
same decoded tuple: the cold call leaves the index map covering the index,
so the warm call skips the iteration drive and replays the same lookup. -/
theorem get_warm_after_cold (s : IdxState) (gi : Int) (s1 : IdxState)
    (v : DecodedTuple) (hmap : s.index_map = [])
    (h : get s gi = (s1, .ok v)) :
    (get s1 gi).2 = .ok v := by
  unfold get at h
  rw [hmap] at h
  simp only [List.length_nil, Nat.cast_zero] at h
  by_cases h0 : (0 : Int) ≤ gi
  case neg =>
    rw [if_neg h0] at h
    unfold getLookup at h
    rw [if_pos (by simp; omega)] at h
    simp at h
  case pos =>
    rw [if_pos h0] at h
    rcases hIter : iter_messages s none none none true false with ⟨sF, out, err⟩
    rw [hIter] at h
    by_cases h2 : gi < (sF.index_map.length : Int)
    · rw [if_pos h2] at h
      have hst := getLookup_state
        { sF with index_map := sF.index_map.take (gi.toNat + 1) } gi
      rw [h] at hst
      have hlen : s1.index_map.length = gi.toNat + 1 := by
        rw [hst.2]
        show (sF.index_map.take (gi.toNat + 1)).length = gi.toNat + 1
        rw [List.length_take]
        omega
      unfold get
      rw [if_neg (by rw [hlen]; omega)]
      calc (getLookup s1 gi).2
          = (getLookup { sF with index_map := sF.index_map.take (gi.toNat + 1) } gi).2 :=
            getLookup_congr _ _ gi hst.1 hst.2
        _ = .ok v := by rw [h]
    · rw [if_neg h2] at h
      cases err with
      | some e => simp at h
      | none =>
        unfold getLookup at h
        rw [if_pos (by simp; omega)] at h
        simp at h

/-- `get` one past the last yielded record of a fresh reader: the full
iteration is driven, the index map is exhaustively extended, and the
bounds check raises `IndexError`. -/
theorem get_past_end (s sF : IdxState) (out : List OutTuple)
    (hmap : s.index_map = [])
    (hIter : iter_messages s none none none true false = (sF, out, none)) :
    get s ((out.length : Nat) : Int) = (sF, .error .indexError)
      ∧ sF.index_map.length = out.length := by
  have hlen : sF.index_map.length = out.length := by
    have h := iter_messages_map_length s none none none true false
    rw [hIter] at h
    simpa using h
  refine ⟨?_, hlen⟩
  unfold get
  rw [hmap, if_pos (by simp), hIter]
  show (if ((out.length : Nat) : Int) < (sF.index_map.length : Int) then
      getLookup { sF with index_map :=
        (sF.index_map.take ((((out.length : Nat) : Int)).toNat + 1)) }
        ((out.length : Nat) : Int)
    else getLookup sF ((out.length : Nat) : Int)) = (sF, .error .indexError)
  rw [if_neg (by rw [hlen]; omega)]
  unfold getLookup
  rw [if_pos (by rw [hlen]; simp)]

end IndexedSeekingReader

/-! ### Claims -/

/-- A fresh reader is the canonical state with no record consumed. -/
theorem initState_eq_mid (D : List Nat) (flag : Bool) :
    initState D flag = midState D (emptyCache flag) [] := by
  simp [initState, midState, totalSize, startOffsets, emptyCache]

/-- C1 counterexample: on a valid flat trace holding one complete record,
`retrieve_offsets()` with no limit returns a one-entry table, not the
claimed two entries (the end-of-stream probe pops the sentinel entry
before the table is returned). -/
theorem retrieve_offsets_table_refuted :
    (OSITraceSingle.retrieve_offsets 3 none
        (initState (encodeAll [[7]]) false)).2 = Except.ok (startOffsets [[7]] 0)
    ∧ (startOffsets [[7]] 0).length = 1
    ∧ ¬ (startOffsets [[7]] 0).length = [[7]].length + 1 :=
  ⟨rfl, by decide, by decide⟩

/-- C1 (amended): for every valid flat trace with `n` complete records,
`retrieve_offsets()` with no limit returns the table of the `n` record
start offsets, strictly increasing; the table has length `n`, not
`n + 1`, because the final end-of-stream probe pops the sentinel entry. -/
theorem retrieve_offsets_table_of_valid_trace :
    ∀ (recs : List Msg) (flag : Bool), validRecords recs →
    OSITraceSingle.retrieve_offsets (recs.length + 2) none
        (initState (encodeAll recs) flag)
      = (doneState (encodeAll recs) (emptyCache flag) recs,
         .ok (startOffsets recs 0))
    ∧ (startOffsets recs 0).length = recs.length
    ∧ List.Chain' (· < ·) (startOffsets recs 0) := by
  intro recs flag hv
  exact ⟨OSITraceSingle.retrieve_offsets_full recs flag 0 hv,
    startOffsets_length recs 0, chain_startOffsets recs 0⟩

/-- C1 witness at the one-record trace `[[9]]` without caching. -/
theorem retrieve_offsets_table_witness :
    validRecords [[9]]
    ∧ (OSITraceSingle.retrieve_offsets ([[9]].length + 2) none
          (initState (encodeAll [[9]]) false)
        = (doneState (encodeAll [[9]]) (emptyCache false) [[9]],
           .ok (startOffsets [[9]] 0))
      ∧ (startOffsets [[9]] 0).length = [[9]].length
      ∧ List.Chain' (· < ·) (startOffsets [[9]] 0)) :=
  ⟨by decide, retrieve_offsets_table_of_valid_trace [[9]] false (by decide)⟩

/-- C2: on a valid flat trace, `get_message_by_index(i)` on a fresh
reader returns exactly the record that fresh sequential iteration yields
at position `i` (the record bytes are identical, as `Msg` is the
serialized byte list). -/
theorem get_by_index_matches_iteration :
    ∀ (flag : Bool) (done : List Msg) (r : Msg) (rest : List Msg),
    validRecords (done ++ r :: rest) →
    (OSITraceSingle.get_message_by_index ((done ++ r :: rest).length + 2)
        (initState (encodeAll (done ++ r :: rest)) flag) (done.length : Int)).2
      = .ok (.vmsg r)
    ∧ (OSITraceSingle.iterLoop ((done ++ r :: rest).length + 2)
        (initState (encodeAll (done ++ r :: rest)) flag)).1 = done ++ r :: rest
    ∧ (done ++ r :: rest).get? done.length = some r := by
  intro flag done r rest hv
  refine ⟨?_, ?_, ?_⟩
  · rw [OSITraceSingle.get_cold flag done r rest hv]
  · have h := OSITraceSingle.iter_loop_fresh (done ++ r :: rest) [] (emptyCache flag)
      [] 1 hv (Or.inl rfl) (by simpa using noKeysFrom_emptyCache flag 0)
    rw [List.nil_append, List.append_nil] at h
    rw [initState_eq_mid]
    rw [show (done ++ r :: rest).length + 2
        = (done ++ r :: rest).length + 1 + 1 from rfl, h]
  · rw [List.get?_append_right (le_refl _)]
    simp

/-- C2 witness at the two-record trace `[[7], [8, 9]]`, index 1. -/
theorem get_by_index_matches_iteration_witness :
    validRecords [[7], [8, 9]]
    ∧ ((OSITraceSingle.get_message_by_index (([[7]] ++ [8, 9] :: []).length + 2)
          (initState (encodeAll ([[7]] ++ [8, 9] :: [])) false)
          (([[7]] : List Msg).length : Int)).2 = .ok (.vmsg [8, 9])
      ∧ (OSITraceSingle.iterLoop (([[7]] ++ [8, 9] :: []).length + 2)
          (initState (encodeAll ([[7]] ++ [8, 9] :: [])) false)).1
            = [[7]] ++ [8, 9] :: []
      ∧ ([[7]] ++ [8, 9] :: []).get? ([[7]] : List Msg).length = some [8, 9]) :=
  ⟨by decide, get_by_index_matches_iteration false [[7]] [8, 9] [] (by decide)⟩

/-- C3 counterexample: on a trace that is a single truncated record (one
byte, no complete record before it), the first `retrieve_message` returns
the `None` sentinel but pops the offset table empty, so the repeated call
raises `IndexError` instead of returning the sentinel again. -/
theorem truncated_repeat_refuted :
    (OSITraceSingle.retrieve_message (initState [5] false) none false).2
      = .ok .vnone
    ∧ (OSITraceSingle.retrieve_message
        ((OSITraceSingle.retrieve_message (initState [5] false) none false).1)
        none false).2 = .error .indexError :=
  ⟨rfl, rfl⟩

/-- C3 (amended): on a flat trace truncated mid-record, iteration yields
exactly the complete records before the truncation point and stops with
no error; the position is rewound to the start of the partial record;
and, provided at least one complete record precedes the truncation,
every repeated `retrieve_message` at that boundary returns the sentinel
with the whole reader state unchanged.  (With zero complete records the
probe empties the offset table and the repeated call raises
`IndexError`.) -/
theorem truncated_trace_end_of_stream :
    ∀ (recs : List Msg) (junk : List Nat) (flag : Bool),
    validRecords recs → recs ≠ [] → truncStop junk → junk ≠ [] →
    (OSITraceSingle.iterLoop (recs.length + 2)
        (initState (encodeAll recs ++ junk) flag)).1 = recs
    ∧ (OSITraceSingle.iterLoop (recs.length + 2)
        (initState (encodeAll recs ++ junk) flag)).2.2 = none
    ∧ (OSITraceSingle.iterLoop (recs.length + 2)
        (initState (encodeAll recs ++ junk) flag)).2.1.pos = totalSize recs
    ∧ (OSITraceSingle.iterLoop (recs.length + 2)
        (initState (encodeAll recs ++ junk) flag)).2.1.read_complete = true
    ∧ OSITraceSingle.retrieve_message
        ((OSITraceSingle.iterLoop (recs.length + 2)
          (initState (encodeAll recs ++ junk) flag)).2.1) none false
      = ((OSITraceSingle.iterLoop (recs.length + 2)
          (initState (encodeAll recs ++ junk) flag)).2.1, .ok .vnone) := by
  intro recs junk flag hv hne htr hjne
  have h := OSITraceSingle.iter_loop_fresh recs [] (emptyCache flag) junk 1 hv
    (Or.inr htr) (by simpa using noKeysFrom_emptyCache flag 0)
  rw [List.nil_append] at h
  have h1 : OSITraceSingle.iterLoop (recs.length + 2)
      (initState (encodeAll recs ++ junk) flag)
      = (recs, doneState (encodeAll recs ++ junk)
          (cacheAfter (emptyCache flag) ([] : List Msg).length recs) recs, none) := by
    rw [initState_eq_mid]
    exact h
  have hnk : noKeysFrom (cacheAfter (emptyCache flag) ([] : List Msg).length recs)
      recs.length := by
    have h2 := OSITraceSingle.noKeysFrom_cacheAfter (emptyCache flag) 0 recs
      (noKeysFrom_emptyCache flag 0)
    rw [Nat.zero_add] at h2
    exact h2
  refine ⟨by rw [h1], by rw [h1], by rw [h1]; rfl, by rw [h1]; rfl, ?_⟩
  rw [h1]
  exact OSITraceSingle.done_fixpoint recs _ junk hne (Or.inr htr) hnk

/-- C3 witness: one complete record `[7]` followed by the one-byte
truncated tail `[5]`. -/
theorem truncated_trace_end_of_stream_witness :
    (validRecords [[7]] ∧ ([[7]] : List Msg) ≠ [] ∧ truncStop [5]
      ∧ ([5] : List Nat) ≠ [])
    ∧ ((OSITraceSingle.iterLoop ([[7]].length + 2)
          (initState (encodeAll [[7]] ++ [5]) false)).1 = [[7]]
      ∧ (OSITraceSingle.iterLoop ([[7]].length + 2)
          (initState (encodeAll [[7]] ++ [5]) false)).2.2 = none
      ∧ (OSITraceSingle.iterLoop ([[7]].length + 2)
          (initState (encodeAll [[7]] ++ [5]) false)).2.1.pos = totalSize [[7]]
      ∧ (OSITraceSingle.iterLoop ([[7]].length + 2)
          (initState (encodeAll [[7]] ++ [5]) false)).2.1.read_complete = true
      ∧ OSITraceSingle.retrieve_message
          ((OSITraceSingle.iterLoop ([[7]].length + 2)
            (initState (encodeAll [[7]] ++ [5]) false)).2.1) none false
        = ((OSITraceSingle.iterLoop ([[7]].length + 2)
            (initState (encodeAll [[7]] ++ [5]) false)).2.1, .ok .vnone)) :=
  ⟨⟨by decide, by decide, Or.inl (by decide), by decide⟩,
   truncated_trace_end_of_stream [[7]] [5] false (by decide) (by decide)
     (Or.inl (by decide)) (by decide)⟩

/-- A concrete single-chunk MCAP file for witnesses: one channel (id 1,
schema 9), one chunk index at start offset 100 pointing at a chunk whose
records are one non-message record followed by one message record. -/
def exampleFile : McapFile :=
  { summary := some
      { channels := [(1, ⟨5, 2⟩)],
        schemas := [(2, 9)],
        chunk_indexes := [⟨100, 10, 20, [1]⟩] },
    chunks := [⟨100, [ChunkRecord.other, ChunkRecord.message ⟨1, 10, [7, 8]⟩]⟩],
    nonseek := fun _ _ _ _ => [],
    seekingDecoded := [],
    decoderFor := fun _ => some (fun d => d) }

/-- A fresh indexed reader over `exampleFile` (no index map, no decoders). -/
def exampleIdx : IdxState := ⟨exampleFile, [], []⟩

/-- The reader over `exampleFile` after a full `iter_messages` pass
(index map built, no decoder cached). -/
def exampleIdx1 : IdxState := ⟨exampleFile, [(some 100, 1)], []⟩

/-- The reader over `exampleFile` after `get(0)` (index map built and the
decoder for schema 1 cached). -/
def exampleIdxD : IdxState := ⟨exampleFile, [(some 100, 1)], [1]⟩

/-- The tuples produced when iterating `exampleFile`. -/
def exampleOut : List OutTuple := [(some 9, 1, ⟨1, 10, [7, 8]⟩, 0)]

/-- The decoded tuple returned by `get(0)` on `exampleFile`. -/
def exampleDecoded : IndexedSeekingReader.DecodedTuple :=
  ⟨some 9, 1, ⟨1, 10, [7, 8]⟩, [7, 8]⟩

/-- C4 counterexample: on the flat one-record trace, a fresh
`get_message_by_index(1)` (one past the end) returns the `None`
sentinel with success instead of raising an out-of-range error. -/
theorem get_one_past_end_refuted :
    (OSITraceSingle.get_message_by_index 3
        (initState (encodeAll [[7]]) false) 1).2 = .ok .vnone := rfl

/-- C4 (amended): requesting index `n` on a fresh reader over a trace of
`n` messages does NOT behave uniformly across strategies.  Flat: the
limited scan builds the table one entry past the requested index, the EOF
probe pops that sentinel entry, and the call silently returns the `None`
sentinel with no error.  Chunked: after `iter_messages` builds the full
index map of length `n`, `get(n)` raises `IndexError`. -/
theorem get_one_past_end_behaviour :
    (∀ (recs : List Msg) (flag : Bool), validRecords recs →
      (OSITraceSingle.get_message_by_index (recs.length + 2)
          (initState (encodeAll recs) flag) (recs.length : Int)).2 = .ok .vnone)
    ∧ ∀ (s sF : IdxState) (out : List OutTuple), s.index_map = [] →
      IndexedSeekingReader.iter_messages s none none none true false
          = (sF, out, none) →
      IndexedSeekingReader.get s ((out.length : Nat) : Int)
          = (sF, .error .indexError)
        ∧ sF.index_map.length = out.length :=
  ⟨fun recs flag hv => OSITraceSingle.get_at_end recs flag hv,
   fun s sF out hmap hIter =>
     IndexedSeekingReader.get_past_end s sF out hmap hIter⟩

/-- C4 witness: flat part at the one-record trace `[[9]]`; chunked part
at `exampleFile`, whose single iteration pass yields one tuple. -/
theorem get_one_past_end_behaviour_witness :
    (validRecords [[9]] ∧ exampleIdx.index_map = []
      ∧ IndexedSeekingReader.iter_messages exampleIdx none none none true false
          = (exampleIdx1, exampleOut, none))
    ∧ (OSITraceSingle.get_message_by_index ([[9]].length + 2)
        (initState (encodeAll [[9]]) false) (([[9]] : List Msg).length : Int)).2
        = .ok .vnone
    ∧ IndexedSeekingReader.get exampleIdx ((exampleOut.length : Nat) : Int)
        = (exampleIdx1, .error .indexError)
    ∧ exampleIdx1.index_map.length = exampleOut.length :=
  ⟨⟨by decide, rfl, rfl⟩,
   get_one_past_end_behaviour.1 [[9]] false (by decide),
   (get_one_past_end_behaviour.2 exampleIdx exampleIdx1 exampleOut rfl rfl).1,
   (get_one_past_end_behaviour.2 exampleIdx exampleIdx1 exampleOut rfl rfl).2⟩

/-- C5: a `retrieve_message` call whose effective start position (the
current position, or the offset selected by the index argument) is not
the last entry of the offset table leaves the offset table and the
message cache unchanged. -/
theorem out_of_band_read_frame :
    ∀ (s : SingleState) (index : Option Int) (skip : Bool) (p last : Nat),
    s.message_offsets.getLast? = some last →
    OSITraceSingle.effStart s index = some p → p ≠ last →
    (OSITraceSingle.retrieve_message s index skip).1.message_offsets
        = s.message_offsets
    ∧ (OSITraceSingle.retrieve_message s index skip).1.message_cache
        = s.message_cache :=
  fun s index skip p last h1 h2 h3 =>
    OSITraceSingle.retrieve_frame s index skip p last h1 h2 h3

/-- C5 witness: a two-record trace whose table is `[0, 5]`, read at
position 0, which is not the last entry 5. -/
theorem out_of_band_read_frame_witness :
    ((⟨encodeAll [[7], [8, 9]], 0, 0, [0, 5], false,
        none⟩ : SingleState).message_offsets.getLast? = some 5
      ∧ OSITraceSingle.effStart
          (⟨encodeAll [[7], [8, 9]], 0, 0, [0, 5], false, none⟩ : SingleState)
          none = some 0
      ∧ (0 : Nat) ≠ 5)
    ∧ (OSITraceSingle.retrieve_message
          (⟨encodeAll [[7], [8, 9]], 0, 0, [0, 5], false, none⟩ : SingleState)
          none false).1.message_offsets
        = (⟨encodeAll [[7], [8, 9]], 0, 0, [0, 5], false,
            none⟩ : SingleState).message_offsets
    ∧ (OSITraceSingle.retrieve_message
          (⟨encodeAll [[7], [8, 9]], 0, 0, [0, 5], false, none⟩ : SingleState)
          none false).1.message_cache
        = (⟨encodeAll [[7], [8, 9]], 0, 0, [0, 5], false,
            none⟩ : SingleState).message_cache :=
  ⟨⟨by decide, by decide, by decide⟩,
   (out_of_band_read_frame _ none false 0 5 (by decide) (by decide)
     (by decide)).1,
   (out_of_band_read_frame _ none false 0 5 (by decide) (by decide)
     (by decide)).2⟩

/-- C6: `iter_messages` with fixed arguments is deterministic across
repeated calls on the same reader: its yielded output and error depend
only on the underlying file, which a pass never changes, so a second full
iteration returns exactly the same output as the first. -/
theorem iter_messages_deterministic :
    ∀ (s : IdxState) (t : Option (List Nat)) (st et : Option Nat)
      (lto rev : Bool),
    (IndexedSeekingReader.iter_messages
        ((IndexedSeekingReader.iter_messages s t st et lto rev).1)
        t st et lto rev).2
      = (IndexedSeekingReader.iter_messages s t st et lto rev).2 := by
  intro s t st et lto rev
  obtain ⟨f, m, d⟩ := s
  rcases hs1 : (IndexedSeekingReader.iter_messages ⟨f, m, d⟩ t st et lto rev).1
    with ⟨f2, m2, d2⟩
  have hf : f2 = f := by
    have h := IndexedSeekingReader.iter_messages_file ⟨f, m, d⟩ t st et lto rev
    rw [hs1] at h
    exact h
  rw [hf]
  exact IndexedSeekingReader.iter_messages_congr f m2 m d2 d t st et lto rev

/-- C7: `get_message_by_index` is idempotent.  Flat: on a valid trace the
cold call at index `i` returns record `i` and the repeated call on the
resulting state (any fuel) returns the same record.  Chunked: if a cold
`get` on a fresh reader succeeds with value `v`, repeating it on the
resulting reader returns the same `v`. -/
theorem get_by_index_idempotent :
    (∀ (flag : Bool) (done : List Msg) (r : Msg) (rest : List Msg),
      validRecords (done ++ r :: rest) →
      (OSITraceSingle.get_message_by_index ((done ++ r :: rest).length + 2)
          (initState (encodeAll (done ++ r :: rest)) flag)
          (done.length : Int)).2 = .ok (.vmsg r)
      ∧ ∀ fuel, (OSITraceSingle.get_message_by_index fuel
          ((OSITraceSingle.get_message_by_index ((done ++ r :: rest).length + 2)
            (initState (encodeAll (done ++ r :: rest)) flag)
            (done.length : Int)).1)
          (done.length : Int)).2 = .ok (.vmsg r))
    ∧ ∀ (s : IdxState) (gi : Int) (s1 : IdxState)
        (v : IndexedSeekingReader.DecodedTuple),
      s.index_map = [] → IndexedSeekingReader.get s gi = (s1, .ok v) →
      (IndexedSeekingReader.get s1 gi).2 = .ok v := by
  constructor
  · intro flag done r rest hv
    have hc := OSITraceSingle.get_cold flag done r rest hv
    refine ⟨by rw [hc], fun fuel => ?_⟩
    rw [hc]
    exact OSITraceSingle.get_warm flag done r rest hv fuel
  · exact fun s gi s1 v hmap h =>
      IndexedSeekingReader.get_warm_after_cold s gi s1 v hmap h

/-- C7 witness: flat part at the one-record trace `[[7]]`, index 0;
chunked part at `exampleFile`, where `get(0)` returns `exampleDecoded`. -/
theorem get_by_index_idempotent_witness :
    (validRecords ([] ++ [7] :: []) ∧ exampleIdx.index_map = []
      ∧ IndexedSeekingReader.get exampleIdx 0 = (exampleIdxD, .ok exampleDecoded))
    ∧ ((OSITraceSingle.get_message_by_index (([] ++ [7] :: []).length + 2)
          (initState (encodeAll ([] ++ [7] :: [])) false)
          (([] : List Msg).length : Int)).2 = .ok (.vmsg [7])
      ∧ (OSITraceSingle.get_message_by_index 5
          ((OSITraceSingle.get_message_by_index (([] ++ [7] :: []).length + 2)
            (initState (encodeAll ([] ++ [7] :: [])) false)
            (([] : List Msg).length : Int)).1)
          (([] : List Msg).length : Int)).2 = .ok (.vmsg [7]))
    ∧ (IndexedSeekingReader.get exampleIdxD 0).2 = .ok exampleDecoded :=
  ⟨⟨by decide, rfl, rfl⟩,
   ⟨(get_by_index_idempotent.1 false [] [7] [] (by decide)).1,
    (get_by_index_idempotent.1 false [] [7] [] (by decide)).2 5⟩,
   get_by_index_idempotent.2 exampleIdx 0 exampleIdxD exampleDecoded rfl rfl⟩

/-- C8: on a facade holding a multi-channel (MCAP) reader, each of the
legacy accessors `retrieve_offsets`, `retrieve_message`,
`get_message_by_index`, `get_messages_in_index_range`, and
`restart` with a non-`None` index raises `NotImplementedError` and
leaves the reader unchanged. -/
theorem multi_reader_legacy_accessors_unsupported :
    ∀ (m : MultiState) (fuel : Nat) (limit index : Option Int)
      (skip : Bool) (i b : Int) (endIdx : Option Int) (j : Int),
    OSITrace.retrieve_offsets fuel (.multi m) limit
        = (.multi m, .error .notImplementedError)
    ∧ OSITrace.retrieve_message (.multi m) index skip
        = (.multi m, .error .notImplementedError)
    ∧ OSITrace.get_message_by_index fuel (.multi m) i
        = (.multi m, .error .notImplementedError)
    ∧ OSITrace.get_messages_in_index_range fuel (.multi m) b endIdx
        = (.multi m, .error .notImplementedError)
    ∧ OSITrace.restart (.multi m) (some j)
        = (.multi m, .error .notImplementedError) :=
  fun _ _ _ _ _ _ _ _ _ => ⟨rfl, rfl, rfl, rfl, rfl⟩

/-- C9: on a valid flat trace of `n` records, after `retrieve_offsets()`
has built the full table, `restart(i)` for `i < n` succeeds, and a
subsequent full iteration yields exactly the records from index `i`
onward, in order, with no error. -/
theorem restart_then_iteration_suffix :
    ∀ (recs : List Msg) (flag : Bool) (i : Nat),
    validRecords recs → i < recs.length →
    (OSITraceSingle.restart
        ((OSITraceSingle.retrieve_offsets (recs.length + 2) none
          (initState (encodeAll recs) flag)).1) (some (i : Int))).2 = .ok ()
    ∧ ∃ sEnd, OSITraceSingle.iterLoop (recs.length + 2)
        ((OSITraceSingle.restart
          ((OSITraceSingle.retrieve_offsets (recs.length + 2) none
            (initState (encodeAll recs) flag)).1) (some (i : Int))).1)
      = (recs.drop i, sEnd, none) := by
  intro recs flag i hv hi
  have hfull := OSITraceSingle.retrieve_offsets_full recs flag 0 hv
  have h1 : (OSITraceSingle.retrieve_offsets (recs.length + 2) none
      (initState (encodeAll recs) flag)).1
      = doneState (encodeAll recs) (emptyCache flag) recs := by
    rw [show recs.length + 2 = recs.length + 2 + 0 from rfl, hfull]
  rw [h1]
  have hres := OSITraceSingle.restart_covered recs flag i hi
  refine ⟨by rw [hres], ?_⟩
  rw [show (OSITraceSingle.restart
      (doneState (encodeAll recs) (emptyCache flag) recs) (some (i : Int))).1
    = OSITraceSingle.resumeState (recs.take i) (recs.drop i) (emptyCache flag)
    by rw [hres]]
  have hvd : validRecords (recs.drop i) :=
    fun r hr => hv r (List.mem_of_mem_drop hr)
  have hnd : recs.drop i ≠ [] := by
    intro hd
    have := List.drop_eq_nil_iff_le.mp hd
    omega
  obtain ⟨sEnd, hEnd⟩ := OSITraceSingle.iter_resume (recs.drop i) (recs.take i)
    (emptyCache flag) (i + 1) hvd hnd (cacheLookup_emptyCache flag)
  refine ⟨sEnd, ?_⟩
  rw [show recs.length + 2 = (recs.drop i).length + 1 + (i + 1) by
    rw [List.length_drop]; omega]
  exact hEnd

/-- C9 witness: the two-record trace `[[7], [8, 9]]`, restart at index 1,
whose subsequent iteration yields exactly `[[8, 9]]`. -/
theorem restart_then_iteration_suffix_witness :
    (validRecords [[7], [8, 9]] ∧ 1 < [[7], [8, 9]].length)
    ∧ ((OSITraceSingle.restart
          ((OSITraceSingle.retrieve_offsets ([[7], [8, 9]].length + 2) none
            (initState (encodeAll [[7], [8, 9]]) false)).1)
          (some ((1 : Nat) : Int))).2 = .ok ()
      ∧ ∃ sEnd, OSITraceSingle.iterLoop ([[7], [8, 9]].length + 2)
          ((OSITraceSingle.restart
            ((OSITraceSingle.retrieve_offsets ([[7], [8, 9]].length + 2) none
              (initState (encodeAll [[7], [8, 9]]) false)).1)
            (some ((1 : Nat) : Int))).1)
        = (([[7], [8, 9]] : List Msg).drop 1, sEnd, none)) :=
  ⟨⟨by decide, by decide⟩,
   restart_then_iteration_suffix [[7], [8, 9]] false 1 (by decide) (by decide)⟩

/-- C10: a negative index `k` with `-len ≤ k` passed to
`get_message_by_index` is not rejected by the explicit bounds test (which
only checks the upper bound) and flows into Python list indexing of the
offset table, so the call seeks to offset `offsets[len + k]` — for
`k = -1`, the last known offset — and, on a cache miss with a nonempty
table, returns a message or the sentinel without raising. -/
theorem negative_index_wraps :
    ∀ (fuel : Nat) (s : SingleState) (k : Int) (off : Nat),
    s.message_offsets ≠ [] → k < 0 →
    pyIdx s.message_offsets k = some off →
    cacheLookup s.message_cache k = none →
    OSITraceSingle.get_message_by_index fuel s k
        = OSITraceSingle.retrieve_message_after_seek
            { s with current_index := k, pos := off } false
    ∧ ∃ v, (OSITraceSingle.get_message_by_index fuel s k).2 = .ok v := by
  intro fuel s k off hne hk hoff hcache
  have hlen : 0 < s.message_offsets.length := List.length_pos.mpr hne
  have heq : OSITraceSingle.get_message_by_index fuel s k
      = OSITraceSingle.retrieve_message_after_seek
          { s with current_index := k, pos := off } false := by
    rw [OSITraceSingle.get_message_by_index]
    rw [if_neg (by omega)]
    simp only [hcache]
    rw [OSITraceSingle.retrieve_message_seek s k off false hoff]
    rfl
  refine ⟨heq, ?_⟩
  rw [heq]
  have hc2 : cacheLookup
      ({ s with current_index := k, pos := off } : SingleState).message_cache
      ({ s with current_index := k, pos := off } : SingleState).current_index
      = none := hcache
  unfold OSITraceSingle.retrieve_message_after_seek
  rw [hc2]
  exact OSITraceSingle.read_no_error _ hne

/-- C10 witness: a one-record trace whose table is `[0, 5]`, queried at
index `-1`, which wraps to the last offset 5. -/
theorem negative_index_wraps_witness :
    ((⟨[1, 0, 0, 0, 7], 5, 1, [0, 5], false,
        none⟩ : SingleState).message_offsets ≠ []
      ∧ (-1 : Int) < 0
      ∧ pyIdx (⟨[1, 0, 0, 0, 7], 5, 1, [0, 5], false,
          none⟩ : SingleState).message_offsets (-1) = some 5
      ∧ cacheLookup (⟨[1, 0, 0, 0, 7], 5, 1, [0, 5], false,
          none⟩ : SingleState).message_cache (-1) = none)
    ∧ (OSITraceSingle.get_message_by_index 4
          (⟨[1, 0, 0, 0, 7], 5, 1, [0, 5], false, none⟩ : SingleState) (-1)
        = OSITraceSingle.retrieve_message_after_seek
            { (⟨[1, 0, 0, 0, 7], 5, 1, [0, 5], false, none⟩ : SingleState) with
              current_index := (-1 : Int), pos := 5 } false
      ∧ ∃ v, (OSITraceSingle.get_message_by_index 4
          (⟨[1, 0, 0, 0, 7], 5, 1, [0, 5], false,
            none⟩ : SingleState) (-1)).2 = .ok v) :=
  ⟨⟨by decide, by decide, by decide, rfl⟩,
   negative_index_wraps 4 ⟨[1, 0, 0, 0, 7], 5, 1, [0, 5], false, none⟩ (-1) 5
     (by decide) (by decide) (by decide) rfl⟩
